import Mathlib

/-!
Shallow embedding of the ng-analyzer core: the import resolver
(ImportMatcher), class member scanner, method usage collector, the
per-component orchestration (AngularComponentAnalyzer / ComponentLoader)
and the recursive graph traversal engine (RecursiveGraphAnalyzer),
together with proofs of the specified behavioural properties.

Modelling conventions:
* file paths are already-resolved absolute strings, so path.resolve is the
  identity on them; path.dirname and two-argument path.resolve are modelled
  for inputs without "." or ".." segments;
* the ts-morph source model (an external collaborator of the core) is an
  explicit environment of files, classes, imports, constructor parameters,
  properties and call expressions; semantic type resolution
  (type.getSymbol().getDeclarations()) is carried as a resolvedClass field;
* JavaScript Set and Map are insertion-ordered lists, Array.prototype.sort
  is insertion sort under code-point order, and the traversal loop is run
  on explicit fuel large enough for every input (proved below).
-/

open scoped List

namespace NgAnalyzer

/-! ### Basic string and list machinery -/

/-- Word character in the sense of the JavaScript regex class backslash-w. -/
def isWordChar (c : Char) : Bool := c.isAlphanum || c = '_'

/-- Lexicographic comparison of character lists by code point: the order the
JavaScript default string sort uses on the ASCII strings this program
produces. -/
def lexLe : List Char → List Char → Bool
  | [], _ => true
  | _ :: _, [] => false
  | a :: as, b :: bs => if a < b then true else if b < a then false else lexLe as bs

/-- String comparison used to model Array.prototype.sort on strings. -/
def strLe (a b : String) : Bool := lexLe a.data b.data

/-- Insert a string into a sorted list. -/
def insertSorted (x : String) : List String → List String
  | [] => [x]
  | y :: ys => if strLe x y then x :: y :: ys else y :: insertSorted x ys

/-- Insertion sort modelling the effect of Array.prototype.sort. -/
def sortStrings (l : List String) : List String := l.foldr insertSorted []

/-- JavaScript Set.add on an insertion-ordered list representation. -/
def jsSetAdd {α : Type} [DecidableEq α] (s : List α) (x : α) : List α :=
  if x ∈ s then s else s ++ [x]

/-- Insertion-order deduplication: the contents of a JavaScript Set built by
adding the elements of the list in order. -/
def dedupKF {α : Type} [DecidableEq α] (l : List α) : List α := l.foldl jsSetAdd []

/-- Substring test modelling String.prototype.includes. -/
def strContains (s pat : String) : Bool :=
  (List.range (s.data.length + 1)).any (fun i => pat.data.isPrefixOf (s.data.drop i))

/-- String.prototype.startsWith on the character lists. -/
def strStartsWith (s pre : String) : Bool := pre.data.isPrefixOf s.data

/-- String.prototype.endsWith on the character lists. -/
def strEndsWith (s suf : String) : Bool := suf.data.isSuffixOf s.data

/-- String.prototype.trim on the character lists. -/
def strTrim (s : String) : String :=
  String.mk (((s.data.dropWhile Char.isWhitespace).reverse.dropWhile
    Char.isWhitespace).reverse)

/-- String.prototype.toLowerCase on the character lists. -/
def strToLower (s : String) : String := String.mk (s.data.map Char.toLower)

/-- String.prototype.slice with a non-negative start. -/
def strDrop (s : String) (n : Nat) : String := String.mk (s.data.drop n)

/-- Removal of the final characters of a string. -/
def strDropRight (s : String) (n : Nat) : String :=
  String.mk (s.data.take (s.data.length - n))

/-- String.prototype.split on a one-character separator. -/
def splitOnCharAux (sep : Char) : List Char → List Char → List String
  | [], acc => [String.mk acc.reverse]
  | c :: cs, acc =>
    if c = sep then String.mk acc.reverse :: splitOnCharAux sep cs []
    else splitOnCharAux sep cs (c :: acc)

def splitOnChar (sep : Char) (s : String) : List String := splitOnCharAux sep s.data []

/-- Array.prototype.join on strings. -/
def strIntercalate (sep : String) : List String → String
  | [] => ""
  | [x] => x
  | x :: xs => x ++ sep ++ strIntercalate sep xs

/-- Model of node path.dirname for forward-slash paths. -/
def pathDirname (p : String) : String :=
  let parts := splitOnChar '/' p
  if parts.length ≤ 1 then "." else strIntercalate "/" parts.dropLast

/-- Model of two-argument node path.resolve for inputs without "." or ".."
segments. -/
def pathResolve (dir rel : String) : String :=
  if strStartsWith rel "/" = true then rel else dir ++ "/" ++ rel

/-! ### Graph data model (RecursiveGraphAnalyzer interfaces) -/

/-- Identity of a graph node: resolved source-file path plus class name. -/
structure NodeId where
  file : String
  className : String
deriving DecidableEq, Repr

inductive DiscoveryReason where
  | root
  | templateTag
  | injects
deriving DecidableEq, Repr

structure DiscoveryEdge where
  fromId : NodeId
  toId : NodeId
  reason : DiscoveryReason
deriving DecidableEq, Repr

structure GraphInstanceSummary where
  propertyName : String
  typeName : String
  methodsUsed : List String
deriving DecidableEq, Repr

structure TemplateRef where
  inline : Option String
  filePath : Option String
deriving DecidableEq, Repr

structure DirectInfo where
  instances : List GraphInstanceSummary
  allMethodsUsed : List String
  template : Option TemplateRef
deriving DecidableEq, Repr

inductive NodeKind where
  | component
  | service
deriving DecidableEq, Repr

structure GraphNode where
  kind : NodeKind
  file : String
  className : String
  selector : Option String
  direct : Option DirectInfo
  serviceHeuristics : Option (List String)
deriving DecidableEq, Repr

/-! ### Source model: the queryable ts-morph collaborator -/

/-- Callee expression of a call expression, with enough structure for both
the text-pattern matching and the AST fallback of the collector. -/
inductive Expr where
  | thisKw
  | identE (name : String)
  | propAccess (obj : Expr) (name : String) (optChain : Bool)
  | callE (callee : Expr) (argsText : String)
  | otherE (text : String)
deriving DecidableEq, Repr

/-- Source text of a callee expression (ts-morph getText). -/
def Expr.getText : Expr → String
  | .thisKw => "this"
  | .identE n => n
  | .propAccess o n opt => o.getText ++ (if opt then "?." else ".") ++ n
  | .callE c args => c.getText ++ "(" ++ args ++ ")"
  | .otherE t => t

structure NamedImportSpec where
  name : String
  aliasName : Option String
deriving DecidableEq, Repr

structure ImportDecl where
  moduleSpecifier : String
  namedImports : List NamedImportSpec
  defaultImport : Option String
  namespaceImport : Option String
deriving DecidableEq, Repr

inductive InitKind where
  | strLit
  | noSubTemplateLit
  | templateExpr
  | otherKind
deriving DecidableEq, Repr

/-- A property-assignment initializer inside the component decorator object:
its syntax kind, its literal value (for literal kinds) and its raw text. -/
structure Initializer where
  kind : InitKind
  value : String
  raw : String
deriving DecidableEq, Repr

/-- First argument of the Component decorator when it is an object literal;
a field is none when the property is absent or not a property assignment. -/
structure ComponentArg where
  selectorInit : Option Initializer
  templateUrlInit : Option Initializer
  templateInit : Option Initializer
deriving DecidableEq, Repr

structure CtorParam where
  name : String
  hasScope : Bool
  typeNodeText : Option String
  inferredType : String
  resolvedClass : Option NodeId
deriving DecidableEq, Repr

structure PropDecl where
  name : String
  typeNodeText : Option String
  resolvedClass : Option NodeId
deriving DecidableEq, Repr

structure CtorDecl where
  params : List CtorParam
  calls : List Expr
deriving DecidableEq, Repr

/-- A class declaration of the source model.  bodyCalls lists, per method or
accessor container, the callee expressions of its descendant call
expressions in traversal order. -/
structure EnvClass where
  name : String
  decorators : List String
  componentArg : Option ComponentArg
  ctors : List CtorDecl
  props : List PropDecl
  bodyCalls : List (List Expr)
deriving DecidableEq, Repr

structure EnvFile where
  path : String
  text : String
  imports : List ImportDecl
  relImports : List String
  classes : List EnvClass
deriving DecidableEq, Repr

/-- The project universe: every file the file system can provide. -/
structure Env where
  files : List EnvFile
deriving DecidableEq, Repr

/-- Lookup of a file by path (getSourceFile / addSourceFileAtPath target). -/
def findFile (env : Env) (p : String) : Option EnvFile :=
  env.files.find? (fun f => f.path == p)

/-! ### ImportMatcher: collectTargetImportsForFile -/

structure ImportMatchResult where
  importedLocalNames : List String
  namespaceLocalNames : List String
  matchedModuleSpecifiers : List String
  importsFromTargetModules : List String
deriving DecidableEq, Repr

/-- The local name a named import binds: the alias when present. -/
def aliasOrName (spec : NamedImportSpec) : String := spec.aliasName.getD spec.name

/-- Processing of one named import of a matched declaration. -/
def namedImportStep (acc : ImportMatchResult) (spec : NamedImportSpec) :
    ImportMatchResult :=
  let n := aliasOrName spec
  { acc with
    importsFromTargetModules := acc.importsFromTargetModules ++ [n],
    importedLocalNames := jsSetAdd acc.importedLocalNames n }

/-- One iteration of the import-declaration loop of
collectTargetImportsForFile. -/
def importStep (targetModules : List String) (acc : ImportMatchResult)
    (decl : ImportDecl) : ImportMatchResult :=
  if decl.moduleSpecifier ∈ targetModules then
    let acc := { acc with
      matchedModuleSpecifiers := acc.matchedModuleSpecifiers ++ [decl.moduleSpecifier] }
    let acc := decl.namedImports.foldl namedImportStep acc
    let acc := match decl.defaultImport with
      | some n =>
        { acc with
          importsFromTargetModules := acc.importsFromTargetModules ++ [n],
          importedLocalNames := jsSetAdd acc.importedLocalNames n }
      | none => acc
    match decl.namespaceImport with
    | some n =>
      { acc with
        importsFromTargetModules := acc.importsFromTargetModules ++ [n],
        namespaceLocalNames := jsSetAdd acc.namespaceLocalNames n }
    | none => acc
  else acc

/-- Scan of a source file's import declarations for matches to the target
modules (ImportMatcher.collectTargetImportsForFile). -/
def collectTargetImportsForFile (imports : List ImportDecl)
    (targetModules : List String) : ImportMatchResult :=
  imports.foldl (importStep targetModules) ⟨[], [], [], []⟩

/-! ### ClassMemberScanner -/

/-- Working record of a candidate instance; methods is a JavaScript Set. -/
structure InstanceRecord where
  propertyName : String
  typeName : String
  methods : List String
deriving DecidableEq, Repr

/-- JavaScript Map from member name to InstanceRecord, insertion ordered. -/
abbrev JsMap : Type := List (String × InstanceRecord)

def jsMapHas (m : JsMap) (k : String) : Bool := m.any (fun kv => kv.1 == k)

/-- Map.set for a key known to be new: used under a has-guard in the source. -/
def jsMapSetNew (m : JsMap) (k : String) (v : InstanceRecord) : JsMap :=
  m ++ [(k, v)]

/-- Mutation of the methods set of the record stored under a key. -/
def jsMapAddMethod (m : JsMap) (k meth : String) : JsMap :=
  m.map (fun kv =>
    if kv.1 = k then (kv.1, { kv.2 with methods := jsSetAdd kv.2.methods meth }) else kv)

/-- Whether the type text matches a direct imported local name, or a
namespace-qualified name whose left side is a namespace alias. -/
def matchType (typeText : String) (importedLocalNames namespaceLocalNames : List String) :
    Option String :=
  if typeText ∈ importedLocalNames then some typeText
  else match splitOnChar '.' typeText with
    | [ns, right] => if ns ∈ namespaceLocalNames then some right else none
    | _ => none

/-- Candidate step shared by parameter and property scanning: insert the
member when its effective type text matches and the key is not taken. -/
def scanInsert (importedLocalNames namespaceLocalNames : List String)
    (m : JsMap) (memberName : String) (typeText : String) : JsMap :=
  if typeText = "" then m
  else match matchType typeText importedLocalNames namespaceLocalNames with
    | none => m
    | some tn =>
      if jsMapHas m memberName then m
      else jsMapSetNew m memberName ⟨memberName, tn, []⟩

/-- ClassMemberScanner.collectTargetInstances: constructor parameter
properties (those with a scope modifier) plus typed class properties. -/
def collectTargetInstances (cls : EnvClass)
    (importedLocalNames namespaceLocalNames : List String) : JsMap :=
  let fromCtor : JsMap :=
    match cls.ctors.head? with
    | none => ([] : JsMap)
    | some ctor => ctor.params.foldl (fun m p =>
        if p.hasScope then
          scanInsert importedLocalNames namespaceLocalNames m p.name
            (p.typeNodeText.getD p.inferredType)
        else m) ([] : JsMap)
  cls.props.foldl (fun m p =>
    match p.typeNodeText with
    | none => m
    | some t => scanInsert importedLocalNames namespaceLocalNames m p.name t) fromCtor

/-- ClassMemberScanner.collectCtorOnlyParams: constructor parameters without
a scope modifier whose type matches. -/
def collectCtorOnlyParams (cls : EnvClass)
    (importedLocalNames namespaceLocalNames : List String) : JsMap :=
  match cls.ctors.head? with
  | none => ([] : JsMap)
  | some ctor => ctor.params.foldl (fun m p =>
      if p.hasScope then m
      else
        scanInsert importedLocalNames namespaceLocalNames m p.name
          (p.typeNodeText.getD p.inferredType)) ([] : JsMap)

/-! ### MethodUsageCollector -/

/-- Match of the tail of the fast-path regex, anchored at the current
position: a word run, an optional question mark then a dot, a second word
run, whitespace, and an opening parenthesis. -/
def matchCalleeTail (cs : List Char) : Option (String × String) :=
  let w1 := cs.takeWhile isWordChar
  let r1 := cs.dropWhile isWordChar
  if w1.isEmpty then none
  else
    let r2? : Option (List Char) :=
      match r1 with
      | '?' :: '.' :: r2 => some r2
      | '.' :: r2 => some r2
      | _ => none
    match r2? with
    | none => none
    | some r2 =>
      let w2 := r2.takeWhile isWordChar
      let r3 := r2.dropWhile isWordChar
      if w2.isEmpty then none
      else
        match r3.dropWhile Char.isWhitespace with
        | '(' :: _ => some (String.mk w1, String.mk w2)
        | _ => none

/-- Unanchored search for the fast-path pattern on the callee text:
a literal "this." followed by matchCalleeTail, tried at every position
left to right (RegExp.prototype.exec semantics). -/
def fastSearch : List Char → Option (String × String)
  | [] => none
  | 't' :: 'h' :: 'i' :: 's' :: '.' :: tail =>
    (match matchCalleeTail tail with
     | some r => some r
     | none => fastSearch ('h' :: 'i' :: 's' :: '.' :: tail))
  | _ :: rest => fastSearch rest

/-- Anchored constructor-only pattern: optional leading whitespace then the
identifier, optional chain, method name and parenthesis. -/
def ctorFastMatch (cs : List Char) : Option (String × String) :=
  matchCalleeTail (cs.dropWhile Char.isWhitespace)

/-- Processing of one call expression by the collector: fast text path,
constructor-only text path, then the AST fallback. -/
def processCall (isCtor : Bool) (maps : JsMap × JsMap) (e : Expr) : JsMap × JsMap :=
  let inst := maps.1
  let ctorM := maps.2
  let t := e.getText
  match fastSearch t.data with
  | some pm =>
    (if jsMapHas inst pm.1 then jsMapAddMethod inst pm.1 pm.2 else inst, ctorM)
  | none =>
    let ctorHit : Option (String × String) :=
      if isCtor then
        match ctorFastMatch t.data with
        | some im => if jsMapHas ctorM im.1 then some im else none
        | none => none
      else none
    match ctorHit with
    | some im => (inst, jsMapAddMethod ctorM im.1 im.2)
    | none =>
      match e with
      | .propAccess (.propAccess .thisKw leftName _) methodName _ =>
        if jsMapHas inst leftName then (jsMapAddMethod inst leftName methodName, ctorM)
        else (inst, ctorM)
      | .propAccess (.identE idName) methodName _ =>
        if isCtor && jsMapHas ctorM idName then (inst, jsMapAddMethod ctorM idName methodName)
        else (inst, ctorM)
      | _ => (inst, ctorM)

/-- MethodUsageCollector.collectInstanceMethodUsages: walk the method,
accessor and constructor containers and aggregate invoked method names. -/
def collectInstanceMethodUsages (cls : EnvClass)
    (instancesMap ctorOnlyParamsMap : JsMap) : JsMap × JsMap :=
  let containers : List (Bool × List Expr) :=
    cls.bodyCalls.map (fun calls => (false, calls)) ++
      cls.ctors.map (fun c => (true, c.calls))
  containers.foldl (fun maps ic => ic.2.foldl (processCall ic.1) maps)
    (instancesMap, ctorOnlyParamsMap)

/-! ### ComponentLoader -/

/-- ComponentLoader.getComponentClass: the class by exact name when it
carries the Component decorator. -/
def getComponentClass (f : EnvFile) (componentClassName : String) : Option EnvClass :=
  match f.classes.find? (fun c => c.name == componentClassName) with
  | none => none
  | some cls => if "Component" ∈ cls.decorators then some cls else none

/-- ComponentLoader.extractTemplateInfo: templateUrl resolved relative to
the source file (string literal only) and the inline template
(string literal, template literal, or raw text of a template expression).
The pair is (templateFilePath, inlineTemplate). -/
def extractTemplateInfo (cls : EnvClass) (sourceFilePath : String) :
    Option String × Option String :=
  if "Component" ∈ cls.decorators then
    match cls.componentArg with
    | none => (none, none)
    | some obj =>
      let templateFilePath := match obj.templateUrlInit with
        | some init =>
          if init.kind = InitKind.strLit then
            some (pathResolve (pathDirname sourceFilePath) init.value)
          else none
        | none => none
      let inlineTemplate := match obj.templateInit with
        | some init =>
          match init.kind with
          | .strLit => some init.value
          | .noSubTemplateLit => some init.value
          | .templateExpr => some init.raw
          | .otherKind => none
        | none => none
      (templateFilePath, inlineTemplate)
  else (none, none)

/-! ### AngularComponentAnalyzer -/

structure AnalyzerInput where
  sourceFilePath : String
  componentClassName : String
  targetModules : Option (List String)
deriving DecidableEq, Repr

/-- Output fields of an AngularComponentAnalyzer instance. -/
structure AnalyzerState where
  templateFilePath : Option String := none
  inlineTemplate : Option String := none
  importsFromTargetModules : List String := []
  matchedModuleSpecifiers : List String := []
  serviceInstancesFromTargetModules : List GraphInstanceSummary := []
  allMethodsUsedOnTargetInstances : List String := []
deriving DecidableEq, Repr

/-- AngularComponentAnalyzer.finalizeSummaries: concatenate the two maps,
sort each methods set, and compute the sorted union. -/
def finalizeSummaries (instancesMap ctorOnlyParamsMap : JsMap) :
    List GraphInstanceSummary × List String :=
  let values := instancesMap.map (fun kv => kv.2) ++
    ctorOnlyParamsMap.map (fun kv => kv.2)
  let instances := values.map (fun i =>
    GraphInstanceSummary.mk i.propertyName i.typeName (sortStrings i.methods))
  let allMethods := sortStrings (dedupKF (instances.flatMap (fun i => i.methodsUsed)))
  (instances, allMethods)

/-- AngularComponentAnalyzer.analyze, as a function of the previous output
state: load the file (returning the state unchanged on failure), reset the
state, scan imports, locate the component class, extract template metadata,
and when target modules are present run instance and method discovery. -/
def AngularComponentAnalyzer.analyze (env : Env) (input : AnalyzerInput)
    (s : AnalyzerState) : AnalyzerState :=
  let targetModules := input.targetModules.getD []
  match findFile env input.sourceFilePath with
  | none => s
  | some sourceFile =>
    let s : AnalyzerState := {}
    let imports := collectTargetImportsForFile sourceFile.imports targetModules
    let s := { s with
      matchedModuleSpecifiers := imports.matchedModuleSpecifiers,
      importsFromTargetModules := imports.importsFromTargetModules }
    match getComponentClass sourceFile input.componentClassName with
    | none => s
    | some cls =>
      let tpl := extractTemplateInfo cls input.sourceFilePath
      let s := { s with templateFilePath := tpl.1, inlineTemplate := tpl.2 }
      if targetModules.isEmpty then s
      else
        let instancesMap := collectTargetInstances cls
          imports.importedLocalNames imports.namespaceLocalNames
        let ctorOnlyMap := collectCtorOnlyParams cls
          imports.importedLocalNames imports.namespaceLocalNames
        if instancesMap.isEmpty && ctorOnlyMap.isEmpty then
          { s with serviceInstancesFromTargetModules := [],
                   allMethodsUsedOnTargetInstances := [] }
        else
          let maps := collectInstanceMethodUsages cls instancesMap ctorOnlyMap
          let fin := finalizeSummaries maps.1 maps.2
          { s with serviceInstancesFromTargetModules := fin.1,
                   allMethodsUsedOnTargetInstances := fin.2 }

/-! ### RecursiveGraphAnalyzer: selectors, index, loading -/

/-- Key of the visited set: resolved path, separator, class name. -/
def nodeKey (file className : String) : String := file ++ "::" ++ className

/-- Name used for index entries: getName() with the default fallback; the
empty string models an anonymous class. -/
def classNameOrDefault (c : EnvClass) : String := if c.name = "" then "default" else c.name

/-- RecursiveGraphAnalyzer.getComponentSelector: the trimmed initializer
text of the selector property with its quotes stripped. -/
def getComponentSelector (cls : EnvClass) : Option String :=
  if "Component" ∈ cls.decorators then
    match cls.componentArg with
    | none => none
    | some obj =>
      match obj.selectorInit with
      | none => none
      | some init =>
        let text := strTrim init.raw
        if strStartsWith text "`" || strStartsWith text "\"" || strStartsWith text "\x27" then
          some (strDropRight (strDrop text 1) 1)
        else none
  else none

/-- Comma-separated selector alternatives, trimmed, non-empty, and not
attribute or class selectors. -/
def selectorParts (selector : String) : List String :=
  (((splitOnChar ',' selector).map strTrim).filter (fun s => ¬ s = "")).filter
    (fun p => ¬ strStartsWith p "[" = true ∧ ¬ strStartsWith p "." = true)

structure SelEntry where
  file : String
  className : String
  selector : String
deriving DecidableEq, Repr

/-- Selector index: tag name to declaring components, insertion ordered. -/
abbrev SelIndex : Type := List (String × List SelEntry)

def idxLookup (idx : SelIndex) (k : String) : Option (List SelEntry) :=
  (idx.find? (fun kv => kv.1 == k)).map (fun kv => kv.2)

def idxSet (idx : SelIndex) (k : String) (v : List SelEntry) : SelIndex :=
  match idx with
  | [] => [(k, v)]
  | kv0 :: rest => if kv0.1 = k then (k, v) :: rest else kv0 :: idxSet rest k v

/-- Register one selector part for a class unless the same file and class
are already present under this tag. -/
def insertEntry (idx : SelIndex) (part : String) (e : SelEntry) : SelIndex :=
  let arr := (idxLookup idx part).getD []
  if arr.any (fun x => x.file == e.file && x.className == e.className) then idx
  else idxSet idx part (arr ++ [e])

def addClassEntries (idx : SelIndex) (f : EnvFile) (c : EnvClass) : SelIndex :=
  if "Component" ∈ c.decorators then
    match getComponentSelector c with
    | none => idx
    | some selector =>
      (selectorParts selector).foldl
        (fun idx part => insertEntry idx part ⟨f.path, classNameOrDefault c, part⟩) idx
  else idx

/-- buildSelectorIndex restricted to one newly available file. -/
def addFileEntries (idx : SelIndex) (f : EnvFile) : SelIndex :=
  f.classes.foldl (fun idx c => addClassEntries idx f c) idx

/-- Full selector index rebuild over the loaded files, in load order. -/
def buildSelectorIndexFull (env : Env) (loaded : List String) : SelIndex :=
  (loaded.filterMap (findFile env)).foldl addFileEntries []

/-- tryLoadFile: return the file when the file system has it, marking it
loaded; adding an already loaded path leaves the project unchanged. -/
def tryLoadFile (env : Env) (loaded : List String) (file : String) :
    Option EnvFile × List String :=
  match findFile env file with
  | none => (none, loaded)
  | some f => (some f, if file ∈ loaded then loaded else loaded ++ [file])

/-- preloadRelativeImports with the depth guard expressed as fuel: the
per-import resolved candidate paths are precomputed in relImports; an
already loaded candidate is skipped without recursion. -/
def preloadRelativeImports (env : Env) : Nat → List String → EnvFile → List String
  | 0, loaded, _ => loaded
  | Nat.succ fuel, loaded, f =>
    f.relImports.foldl (fun loaded t =>
      if t ∈ loaded then loaded
      else match findFile env t with
        | none => loaded
        | some tf => preloadRelativeImports env fuel (loaded ++ [t]) tf) loaded

/-- Loading of the sibling files of a root directory matching one glob
suffix, in file-system order. -/
def loadPattern (env : Env) (loaded : List String) (dir suffix : String) : List String :=
  env.files.foldl (fun loaded f =>
    if pathDirname f.path = dir ∧ strEndsWith f.path suffix = true then
      (if f.path ∈ loaded then loaded else loaded ++ [f.path])
    else loaded) loaded

structure RootSpec where
  sourceFilePath : String
  componentClassName : String
  targetModules : Option (List String)
deriving DecidableEq, Repr

structure Request where
  roots : List RootSpec
  targetModules : Option (List String)
  maxDepth : Option Nat
  maxNodes : Option Nat
deriving DecidableEq, Repr

/-- Pre-loading phase of analyze: roots with their relative-import closure,
then the sibling component, service and plain TypeScript files of every
root directory. -/
def initialLoad (env : Env) (req : Request) : List String :=
  let loaded := req.roots.foldl (fun loaded r =>
    let res := tryLoadFile env loaded r.sourceFilePath
    match res.1 with
    | some sf => preloadRelativeImports env 3 res.2 sf
    | none => res.2) []
  let rootDirs := dedupKF (req.roots.map (fun r => pathDirname r.sourceFilePath))
  rootDirs.foldl (fun loaded dir =>
    let l1 := loadPattern env loaded dir ".component.ts"
    let l2 := loadPattern env l1 dir ".service.ts"
    loadPattern env l2 dir ".ts") loaded

/-! ### RecursiveGraphAnalyzer: traversal loop -/

structure QueueItem where
  file : String
  className : String
  depth : Nat
  reason : DiscoveryReason
deriving DecidableEq, Repr

/-- Mutable traversal state apart from the work queue. -/
structure TravState where
  visited : List String
  nodes : List GraphNode
  edges : List DiscoveryEdge
  diagnostics : List String
  loaded : List String
  index : SelIndex
deriving DecidableEq, Repr

def nodeLimitMsg (maxNodes : Nat) : String :=
  "Node limit " ++ toString maxNodes ++ " reached; traversal truncated."

def fileNotFoundMsg (file : String) : String := "File not found: " ++ file

def classNotFoundMsg (className file : String) : String :=
  "Class " ++ className ++ " not found in " ++ file

/-- Per-root target-module override resolution. -/
def resolveTargetModulesForRoot (req : Request) (item : QueueItem) : List String :=
  match req.roots.find? (fun r =>
    r.sourceFilePath == item.file && r.componentClassName == item.className) with
  | some root => root.targetModules.getD (req.targetModules.getD [])
  | none => req.targetModules.getD []

/-- JavaScript truthiness of an optional string. -/
def truthy : Option String → Bool
  | some s => ¬ s = ""
  | none => false

/-- analyzeComponentNode: run the component analyzer and package a node. -/
def analyzeComponentNode (env : Env) (file className : String)
    (targetModules : List String) (cls : EnvClass) : GraphNode :=
  let a := AngularComponentAnalyzer.analyze env ⟨file, className, some targetModules⟩ {}
  let selector := getComponentSelector cls
  { kind := .component, file := file, className := className,
    selector := match selector with
      | some s => if s = "" then none else some s
      | none => none,
    direct := some {
      instances := a.serviceInstancesFromTargetModules,
      allMethodsUsed := a.allMethodsUsedOnTargetInstances,
      template := if truthy a.inlineTemplate || truthy a.templateFilePath then
          some ⟨a.inlineTemplate, a.templateFilePath⟩
        else none },
    serviceHeuristics := none }

/-- analyzeServiceNode with its informational heuristics. -/
def analyzeServiceNode (file className : String) (cls : EnvClass) : GraphNode :=
  let h1 : List String := if "Injectable" ∈ cls.decorators then ["decorator"] else []
  let h2 := if strEndsWith file ".service.ts" = true then h1 ++ ["filename"] else h1
  let heuristics := if h2.isEmpty then ["generic"] else h2
  { kind := .service, file := file, className := className, selector := none,
    direct := none, serviceHeuristics := some heuristics }

/-- Map.set keeping first-insertion position and the last value. -/
def uniqSet (m : List (String × NodeId)) (k : String) (v : NodeId) :
    List (String × NodeId) :=
  match m with
  | [] => [(k, v)]
  | kv0 :: rest => if kv0.1 = k then (kv0.1, v) :: rest else kv0 :: uniqSet rest k v

/-- Deduplication by node key at the end of collectInjectedClassTypes. -/
def dedupByKey (l : List NodeId) : List NodeId :=
  (l.foldl (fun m i => uniqSet m (nodeKey i.file i.className) i) []).map (fun kv => kv.2)

/-- collectInjectedClassTypes: constructor parameters and typed properties
whose type resolves to a named project class declaration, deduplicated. -/
def collectInjectedClassTypes (cls : EnvClass) : List NodeId :=
  let fromCtor : List NodeId :=
    match cls.ctors.head? with
    | none => []
    | some ctor => ctor.params.foldl (fun acc p =>
        if p.typeNodeText.isSome then
          match p.resolvedClass with
          | some i => acc ++ [i]
          | none => acc
        else acc) []
  let all := cls.props.foldl (fun acc p =>
      if p.typeNodeText.isSome then
        match p.resolvedClass with
        | some i => acc ++ [i]
        | none => acc
      else acc) fromCtor
  dedupByKey all

/-- A tag character inside a start tag: word character or dash. -/
def isTagChar (c : Char) : Bool := isWordChar c || c = '-'

/-- The captured tag for an accumulated reversed character run: the word
boundary of the regex trims trailing dashes. -/
def finishTag (acc : List Char) : String :=
  String.mk ((acc.dropWhile (fun d => ¬ isWordChar d = true)).reverse)

/-- Scanner mode: outside any tag, directly after an opening angle bracket,
or inside a tag with the reversed run accumulated so far. -/
inductive ScanMode where
  | outside
  | afterLt
  | inTag (acc : List Char)

/-- Template-tag scanner: every start tag of the template text in order,
modelling the exec loop of the naive element-tag regex (an opening angle
bracket, an alphabetic character, then word characters and dashes, trimmed
of trailing dashes by the word boundary). -/
def scanTagsAux : ScanMode → List Char → List String
  | .inTag acc, [] => [finishTag acc]
  | _, [] => []
  | .outside, c :: rest =>
    if c = '<' then scanTagsAux .afterLt rest else scanTagsAux .outside rest
  | .afterLt, c :: rest =>
    if c.isAlpha then scanTagsAux (.inTag [c]) rest
    else if c = '<' then scanTagsAux .afterLt rest
    else scanTagsAux .outside rest
  | .inTag acc, c :: rest =>
    if isTagChar c then scanTagsAux (.inTag (c :: acc)) rest
    else if c = '<' then finishTag acc :: scanTagsAux .afterLt rest
    else finishTag acc :: scanTagsAux .outside rest

def scanTags (cs : List Char) : List String := scanTagsAux .outside cs

/-- Fixed allow-list of common markup tags. -/
def htmlTagList : List String :=
  ["div", "span", "h1", "h2", "h3", "h4", "h5", "h6", "p", "ul", "li", "ol",
   "header", "footer", "section", "article", "main", "nav", "a", "img",
   "button", "input", "select", "option", "textarea", "form", "label",
   "table", "thead", "tbody", "tr", "td", "th", "pre", "code"]

def isLikelyHtmlTag (tag : String) : Bool := strToLower tag ∈ htmlTagList

/-- extractElementSelectorsFromTemplate: candidate tags, filtered and
deduplicated in insertion order (the Set of the source). -/
def extractElementSelectorsFromTemplate (template : String) : List String :=
  dedupKF ((scanTags template.data).filter (fun tag => ¬ isLikelyHtmlTag tag = true))

/-- readExternalTemplate: full text of the template file, loading it. -/
def readExternalTemplate (env : Env) (loaded : List String) (fp? : Option String) :
    Option String × List String :=
  match fp? with
  | none => (none, loaded)
  | some fp =>
    let r := tryLoadFile env loaded fp
    match r.1 with
    | some f => (some f.text, r.2)
    | none => (none, r.2)

/-- Template text of a component node: the inline text when truthy, else
the loaded external template. -/
def templateTextOf (env : Env) (loaded : List String) (node : GraphNode) :
    Option String × List String :=
  let tref := node.direct.bind (fun d => d.template)
  match tref.bind (fun t => t.inline) with
  | some s =>
    if s = "" then readExternalTemplate env loaded (tref.bind (fun t => t.filePath))
    else (some s, loaded)
  | none => readExternalTemplate env loaded (tref.bind (fun t => t.filePath))

/-- One indexed component under a matched tag: the edge is always emitted,
the push only for unvisited targets. -/
def tagPushStep (visited : List String) (item : QueueItem)
    (acc : List DiscoveryEdge × List QueueItem) (comp : SelEntry) :
    List DiscoveryEdge × List QueueItem :=
  let e : DiscoveryEdge :=
    ⟨⟨item.file, item.className⟩, ⟨comp.file, comp.className⟩, .templateTag⟩
  let push : List QueueItem :=
    if nodeKey comp.file comp.className ∈ visited then []
    else [⟨comp.file, comp.className, item.depth + 1, .templateTag⟩]
  (acc.1 ++ [e], acc.2 ++ push)

/-- One extracted tag: all components the index declares for it. -/
def tagScanStep (index : SelIndex) (visited : List String) (item : QueueItem)
    (acc : List DiscoveryEdge × List QueueItem) (sel : String) :
    List DiscoveryEdge × List QueueItem :=
  match idxLookup index sel with
  | none => acc
  | some comps => comps.foldl (tagPushStep visited item) acc

/-- Template-tag discovery for one component: edges for every indexed
declaring component, and queue pushes for the unvisited ones. -/
def tagDiscovery (index : SelIndex) (visited : List String) (item : QueueItem)
    (tags : List String) : List DiscoveryEdge × List QueueItem :=
  tags.foldl (tagScanStep index visited item) ([], [])

/-- One resolved dependency: edge always, push when unvisited. -/
def depPushStep (visited : List String) (item : QueueItem)
    (acc : List DiscoveryEdge × List QueueItem) (dep : NodeId) :
    List DiscoveryEdge × List QueueItem :=
  let e : DiscoveryEdge :=
    ⟨⟨item.file, item.className⟩, ⟨dep.file, dep.className⟩, .injects⟩
  let push : List QueueItem :=
    if nodeKey dep.file dep.className ∈ visited then []
    else [⟨dep.file, dep.className, item.depth + 1, .injects⟩]
  (acc.1 ++ [e], acc.2 ++ push)

/-- Injection discovery: one edge per resolved dependency, and queue pushes
for the unvisited ones. -/
def depDiscovery (visited : List String) (item : QueueItem) (deps : List NodeId) :
    List DiscoveryEdge × List QueueItem :=
  deps.foldl (depPushStep visited item) ([], [])

/-- Tag discovery guarded by template-text truthiness: empty or missing
template text yields nothing. -/
def taggedOf (index : SelIndex) (visited : List String) (item : QueueItem)
    (tm1 : Option String) : List DiscoveryEdge × List QueueItem :=
  match tm1 with
  | some t =>
    if t = "" then ([], [])
    else tagDiscovery index visited item (extractElementSelectorsFromTemplate t)
  | none => ([], [])

/-- Body of one dequeued unvisited in-depth item: load and re-index the
file, locate the class, analyze it as component or service, discover edges
and compute the queue pushes.  The caller has already added the key to the
visited set. -/
def processItem (env : Env) (req : Request) (st : TravState) (item : QueueItem) :
    TravState × List QueueItem :=
  let r := tryLoadFile env st.loaded item.file
  match r.1 with
  | none =>
    let st2 := { st with
      loaded := r.2
      diagnostics := st.diagnostics ++ [fileNotFoundMsg item.file] }
    (st2, [])
  | some sourceFile =>
    let st := { st with loaded := r.2, index := addFileEntries st.index sourceFile }
    match sourceFile.classes.find? (fun c => c.name == item.className) with
    | none =>
      ({ st with diagnostics := st.diagnostics ++
        [classNotFoundMsg item.className item.file] }, [])
    | some cls =>
      if "Component" ∈ cls.decorators then
        let node := analyzeComponentNode env item.file item.className
          (resolveTargetModulesForRoot req item) cls
        let tm := templateTextOf env st.loaded node
        let st := { st with loaded := tm.2 }
        let tagged := taggedOf st.index st.visited item tm.1
        let deps := collectInjectedClassTypes cls
        let fromDeps := depDiscovery st.visited item deps
        let st2 := { st with
          edges := st.edges ++ tagged.1 ++ fromDeps.1
          nodes := st.nodes ++ [node] }
        (st2, tagged.2 ++ fromDeps.2)
      else
        let node := analyzeServiceNode item.file item.className cls
        let deps := collectInjectedClassTypes cls
        let fromDeps := depDiscovery st.visited item deps
        let st2 := { st with
          edges := st.edges ++ fromDeps.1
          nodes := st.nodes ++ [node] }
        (st2, fromDeps.2)

def depthExceeds (maxDepth : Option Nat) (d : Nat) : Bool :=
  match maxDepth with
  | none => false
  | some m => decide (m < d)

/-- The while loop of RecursiveGraphAnalyzer.analyze on explicit fuel; the
boolean is true when the loop finished by queue exhaustion or by the node
ceiling, false when the fuel ran out first (shown impossible below for the
fuel analyze supplies). -/
def loopRun (env : Env) (req : Request) (maxNodes : Nat) (maxDepth : Option Nat) :
    Nat → List QueueItem → TravState → TravState × Bool
  | _, [], st => (st, true)
  | 0, _ :: _, st => (st, false)
  | Nat.succ fuel, item :: rest, st =>
    if nodeKey item.file item.className ∈ st.visited then
      loopRun env req maxNodes maxDepth fuel rest st
    else if maxNodes ≤ st.nodes.length then
      ({ st with diagnostics := st.diagnostics ++ [nodeLimitMsg maxNodes] }, true)
    else if depthExceeds maxDepth item.depth = true then
      loopRun env req maxNodes maxDepth fuel rest st
    else
      let st2 := { st with visited := jsSetAdd st.visited (nodeKey item.file item.className) }
      let pr := processItem env req st2 item
      loopRun env req maxNodes maxDepth fuel (rest ++ pr.2) pr.1

/-! ### Fuel bound -/

/-- Every selector-index entry the traversal can ever create, with its tag. -/
def canonPairs (env : Env) : List (String × SelEntry) :=
  env.files.flatMap (fun f => f.classes.flatMap (fun c =>
    if "Component" ∈ c.decorators then
      match getComponentSelector c with
      | some selector => (selectorParts selector).map
          (fun part => (part, SelEntry.mk f.path (classNameOrDefault c) part))
      | none => []
    else []))

/-- Upper bound on the dependency fan-out of any class of the project. -/
def depBoundTotal (env : Env) : Nat :=
  (env.files.flatMap (fun f => f.classes.map (fun c =>
    ((c.ctors.head?.map (fun ct => ct.params.length)).getD 0) + c.props.length))).sum

/-- Bound on the queue pushes of a single processed node. -/
def pushBound (env : Env) : Nat := (canonPairs env).length + depBoundTotal env

/-- Every node key the traversal can ever enqueue. -/
def univKeys (env : Env) (req : Request) : List String :=
  dedupKF
    (req.roots.map (fun r => nodeKey r.sourceFilePath r.componentClassName) ++
     env.files.flatMap (fun f => f.classes.map (fun c =>
       nodeKey f.path (classNameOrDefault c))) ++
     env.files.flatMap (fun f => f.classes.flatMap (fun c =>
       (collectInjectedClassTypes c).map (fun i => nodeKey i.file i.className))))

/-- Fuel sufficient for every traversal (proved below). -/
def fuelFor (env : Env) (req : Request) : Nat :=
  req.roots.length + (pushBound env + 1) * (univKeys env req).length + 1

/-! ### RecursiveGraphAnalyzer.analyze -/

structure Aggregate where
  allMethodsUsed : List String
deriving DecidableEq, Repr

structure Limits where
  maxDepth : Option Nat
  maxNodes : Nat
  truncated : Bool
deriving DecidableEq, Repr

structure AnalysisResult where
  nodes : List GraphNode
  edges : List DiscoveryEdge
  aggregate : Aggregate
  diagnostics : List String
  limits : Limits
deriving DecidableEq, Repr

/-- Pre-loading, selector indexing, seeding and the bounded loop. -/
def RecursiveGraphAnalyzer.analyzeAux (env : Env) (req : Request) :
    TravState × Bool :=
  let maxNodes := req.maxNodes.getD 500
  let loaded := initialLoad env req
  let index := buildSelectorIndexFull env loaded
  let queue := req.roots.map (fun r =>
    QueueItem.mk r.sourceFilePath r.componentClassName 0 .root)
  loopRun env req maxNodes req.maxDepth (fuelFor env req) queue
    ⟨[], [], [], [], loaded, index⟩

/-- RecursiveGraphAnalyzer.analyze: the loop result packaged with the
aggregate method union and the limits record. -/
def RecursiveGraphAnalyzer.analyze (env : Env) (req : Request) : AnalysisResult :=
  let st := (RecursiveGraphAnalyzer.analyzeAux env req).1
  let methodUnion := st.nodes.foldl (fun acc n =>
    match n.kind, n.direct with
    | .component, some d => d.allMethodsUsed.foldl jsSetAdd acc
    | _, _ => acc) []
  { nodes := st.nodes,
    edges := st.edges,
    aggregate := ⟨sortStrings methodUnion⟩,
    diagnostics := st.diagnostics,
    limits := ⟨req.maxDepth, req.maxNodes.getD 500,
      st.diagnostics.any (fun d => strContains d "Node limit")⟩ }

/-! ### Specification-side formulations -/

/-- Identity of an output node as the specification states it. -/
def nodeIdentity (n : GraphNode) : String × String := (n.file, n.className)

/-- Specification-side sorted deduplicated union of a list of names,
written with the Mathlib deduplication rather than the JavaScript Set. -/
def sortedDedupSpec (l : List String) : List String := sortStrings l.dedup

/-- The concatenation of the per-component method unions over the output
nodes, as the specification describes the traversal aggregate. -/
def componentMethodLists (nodes : List GraphNode) : List String :=
  nodes.flatMap (fun n =>
    match n.kind, n.direct with
    | .component, some d => d.allMethodsUsed
    | _, _ => [])

/-- Sortedness in the string order of the JavaScript sort. -/
def SortedStr (l : List String) : Prop := l.Pairwise (fun a b => strLe a b = true)

/-- Well-formedness of a candidate map: member names are unique keys and
every record is stored under its own property name. -/
def GoodMap (m : JsMap) : Prop :=
  (m.map (fun kv => kv.1)).Nodup ∧ ∀ kv ∈ m, kv.2.propertyName = kv.1

/-- Invariant of the traversal state carrying claim C1: output node keys
are distinct and all marked visited. -/
def NodesInv (st : TravState) : Prop :=
  (st.nodes.map (fun n => nodeKey n.file n.className)).Nodup ∧
  ∀ n ∈ st.nodes, nodeKey n.file n.className ∈ st.visited

/-- The components the index currently declares for a tag. -/
def idxBucket (idx : SelIndex) (tag : String) : List SelEntry :=
  (idxLookup idx tag).getD []

/-- Selector-index well-formedness: buckets are duplicate-free and contain
only entries the project can produce. -/
def IndexInv (env : Env) (idx : SelIndex) : Prop :=
  ∀ tag, (idxBucket idx tag).Nodup ∧ ∀ e ∈ idxBucket idx tag, (tag, e) ∈ canonPairs env

/-- Every queued identity is one of the finitely many reachable keys. -/
def QueueInv (env : Env) (req : Request) (queue : List QueueItem) : Prop :=
  ∀ it ∈ queue, nodeKey it.file it.className ∈ univKeys env req

/-- Number of reachable keys not yet visited. -/
def unvisitedCount (env : Env) (req : Request) (st : TravState) : Nat :=
  ((univKeys env req).filter (fun k => ¬ k ∈ st.visited)).length

/-- Termination potential of the loop. -/
def potential (env : Env) (req : Request) (queue : List QueueItem) (st : TravState) : Nat :=
  queue.length + (pushBound env + 1) * unvisitedCount env req st

/-! ### Concrete environments for the testable properties -/

/-- Component A referencing tag b-comp of component B. -/
def clsA : EnvClass :=
  { name := "AComp", decorators := ["Component"],
    componentArg := some
      { selectorInit := some ⟨.strLit, "a-comp", "\"a-comp\""⟩,
        templateUrlInit := none,
        templateInit := some ⟨.strLit, "<b-comp></b-comp>", "\"<b-comp></b-comp>\""⟩ },
    ctors := [], props := [], bodyCalls := [] }

/-- Component B referencing tag a-comp of component A. -/
def clsB : EnvClass :=
  { name := "BComp", decorators := ["Component"],
    componentArg := some
      { selectorInit := some ⟨.strLit, "b-comp", "\"b-comp\""⟩,
        templateUrlInit := none,
        templateInit := some ⟨.strLit, "<a-comp></a-comp>", "\"<a-comp></a-comp>\""⟩ },
    ctors := [], props := [], bodyCalls := [] }

/-- Two mutually referencing components in one directory. -/
def envCycle : Env :=
  ⟨[⟨"/app/a.ts", "", [], [], [clsA]⟩, ⟨"/app/b.ts", "", [], [], [clsB]⟩]⟩

def reqCycle : Request :=
  { roots := [⟨"/app/a.ts", "AComp", none⟩], targetModules := none,
    maxDepth := none, maxNodes := none }

/-- The same two discoverable components under a node ceiling of one. -/
def reqCeiling : Request :=
  { roots := [⟨"/app/a.ts", "AComp", none⟩], targetModules := none,
    maxDepth := none, maxNodes := some 1 }

/-- A root whose missing file path contains the truncation marker text. -/
def reqAdversarial : Request :=
  { roots := [⟨"/p/Node limit 500 reached; traversal truncated.ts", "X", none⟩],
    targetModules := none, maxDepth := none, maxNodes := none }

def envEmpty : Env := ⟨[]⟩

/-- Component with a constructor parameter property of an allow-listed
imported type and two method calls on it. -/
def clsC9 : EnvClass :=
  { name := "A", decorators := ["Component"],
    componentArg := some ⟨none, none, none⟩,
    ctors := [⟨[⟨"svc", true, some "Svc", "Svc", none⟩], []⟩],
    props := [],
    bodyCalls := [[
      Expr.propAccess (Expr.propAccess .thisKw "svc" false) "load" false,
      Expr.propAccess (Expr.propAccess .thisKw "svc" true) "save" true]] }

def envC9 : Env :=
  ⟨[⟨"/m/a.ts", "", [⟨"lib", [⟨"Svc", none⟩], none, none⟩], [], [clsC9]⟩]⟩

/-- Component with a class property and a non-property constructor
parameter sharing the name svc, both of an allow-listed type. -/
def clsC7 : EnvClass :=
  { name := "B", decorators := ["Component"],
    componentArg := some ⟨none, none, none⟩,
    ctors := [⟨[⟨"svc", false, some "Svc", "Svc", none⟩], []⟩],
    props := [⟨"svc", some "Svc", none⟩],
    bodyCalls := [] }

def envC7 : Env :=
  ⟨[⟨"/m/b.ts", "", [⟨"lib", [⟨"Svc", none⟩], none, none⟩], [], [clsC7]⟩]⟩

/-- Malformed component declaring both templateUrl and an inline template. -/
def clsBoth : EnvClass :=
  { name := "C", decorators := ["Component"],
    componentArg := some
      ⟨none, some ⟨.strLit, "c.html", "\"c.html\""⟩, some ⟨.strLit, "hello", "\"hello\""⟩⟩,
    ctors := [], props := [], bodyCalls := [] }

/-! ## Lemmas about the basic machinery -/

theorem mem_jsSetAdd {α : Type} [DecidableEq α] (s : List α) (x y : α) :
    y ∈ jsSetAdd s x ↔ y ∈ s ∨ y = x := by
  unfold jsSetAdd
  by_cases hx : x ∈ s
  · simp only [if_pos hx]
    constructor
    · exact fun h => Or.inl h
    · rintro (h | rfl)
      · exact h
      · exact hx
  · simp [if_neg hx]

theorem nodup_jsSetAdd {α : Type} [DecidableEq α] (s : List α) (x : α)
    (h : s.Nodup) : (jsSetAdd s x).Nodup := by
  unfold jsSetAdd
  by_cases hx : x ∈ s
  · simpa [if_pos hx]
  · simp only [if_neg hx]
    simpa [List.nodup_append, h] using hx

theorem mem_foldl_jsSetAdd {α : Type} [DecidableEq α] (l : List α) :
    ∀ (s : List α) (y : α), y ∈ l.foldl jsSetAdd s ↔ y ∈ s ∨ y ∈ l := by
  induction l with
  | nil => simp
  | cons a l ih =>
    intro s y
    simp only [List.foldl_cons, ih, mem_jsSetAdd, List.mem_cons]
    tauto

theorem nodup_foldl_jsSetAdd {α : Type} [DecidableEq α] (l : List α) :
    ∀ (s : List α), s.Nodup → (l.foldl jsSetAdd s).Nodup := by
  induction l with
  | nil => simp
  | cons a l ih =>
    intro s hs
    exact ih _ (nodup_jsSetAdd _ _ hs)

theorem mem_dedupKF {α : Type} [DecidableEq α] (l : List α) (y : α) :
    y ∈ dedupKF l ↔ y ∈ l := by
  unfold dedupKF
  simp [mem_foldl_jsSetAdd]

theorem nodup_dedupKF {α : Type} [DecidableEq α] (l : List α) : (dedupKF l).Nodup :=
  nodup_foldl_jsSetAdd l [] List.nodup_nil

theorem dedupKF_perm_dedup {α : Type} [DecidableEq α] (l : List α) :
    dedupKF l ~ l.dedup := by
  rw [List.perm_ext_iff_of_nodup (nodup_dedupKF l) (List.nodup_dedup l)]
  intro a
  rw [mem_dedupKF, List.mem_dedup]

/-! ### String order -/

theorem lexLe_total : ∀ a b : List Char, lexLe a b = true ∨ lexLe b a = true := by
  intro a
  induction a with
  | nil => intro b; left; rfl
  | cons x xs ih =>
    intro b
    cases b with
    | nil => right; rfl
    | cons y ys =>
      rcases lt_trichotomy x y with h | h | h
      · left; simp [lexLe, h]
      · subst h
        rcases ih ys with h2 | h2
        · left; simp [lexLe, lt_irrefl, h2]
        · right; simp [lexLe, lt_irrefl, h2]
      · right; simp [lexLe, h]

theorem lexLe_antisymm : ∀ a b : List Char,
    lexLe a b = true → lexLe b a = true → a = b := by
  intro a
  induction a with
  | nil =>
    intro b _ h2
    cases b with
    | nil => rfl
    | cons y ys => simp [lexLe] at h2
  | cons x xs ih =>
    intro b h1 h2
    cases b with
    | nil => simp [lexLe] at h1
    | cons y ys =>
      by_cases hxy : x < y
      · exfalso
        have : ¬ y < x := lt_asymm hxy
        simp [lexLe, this, hxy] at h2
      · by_cases hyx : y < x
        · exfalso
          simp [lexLe, hxy, hyx] at h1
        · have hx : x = y := le_antisymm (not_lt.mp hyx) (not_lt.mp hxy)
          subst hx
          simp only [lexLe, if_neg hxy, if_neg hyx] at h1 h2
          rw [ih ys h1 h2]

theorem strLe_total (a b : String) : strLe a b = true ∨ strLe b a = true :=
  lexLe_total a.data b.data

theorem strLe_antisymm {a b : String} (h1 : strLe a b = true) (h2 : strLe b a = true) :
    a = b := by
  apply String.ext
  exact lexLe_antisymm a.data b.data h1 h2

theorem lexLe_trans : ∀ a b c : List Char,
    lexLe a b = true → lexLe b c = true → lexLe a c = true := by
  intro a
  induction a with
  | nil => intro b c _ _; rfl
  | cons x xs ih =>
    intro b c h1 h2
    cases b with
    | nil => simp [lexLe] at h1
    | cons y ys =>
      cases c with
      | nil => simp [lexLe] at h2
      | cons z zs =>
        rcases lt_trichotomy x y with hxy | hxy | hxy
        · rcases lt_trichotomy y z with hyz | hyz | hyz
          · have : x < z := lt_trans hxy hyz
            simp [lexLe, this]
          · subst hyz
            simp [lexLe, hxy]
          · exfalso
            have : ¬ y < z := lt_asymm hyz
            simp [lexLe, this, hyz] at h2
        · subst hxy
          simp only [lexLe, lt_irrefl, if_neg (lt_irrefl x)] at h1
          rcases lt_trichotomy x z with hxz | hxz | hxz
          · simp [lexLe, hxz]
          · subst hxz
            simp only [lexLe, lt_irrefl, if_neg (lt_irrefl x)] at h2 ⊢
            simp at h1 h2 ⊢
            exact ih ys zs h1 h2
          · exfalso
            have : ¬ x < z := lt_asymm hxz
            simp [lexLe, this, hxz] at h2
        · exfalso
          have : ¬ x < y := lt_asymm hxy
          simp [lexLe, this, hxy] at h1

theorem strLe_trans {a b c : String} (h1 : strLe a b = true) (h2 : strLe b c = true) :
    strLe a c = true :=
  lexLe_trans a.data b.data c.data h1 h2

instance : IsAntisymm String (fun a b => strLe a b = true) :=
  ⟨fun _ _ h1 h2 => strLe_antisymm h1 h2⟩

/-! ### Sorting -/

theorem insertSorted_perm (x : String) (l : List String) :
    insertSorted x l ~ x :: l := by
  induction l with
  | nil => rfl
  | cons y ys ih =>
    unfold insertSorted
    by_cases h : strLe x y = true
    · simp [h]
    · simp only [if_neg h]
      calc y :: insertSorted x ys ~ y :: x :: ys := (ih.cons y)
        _ ~ x :: y :: ys := List.Perm.swap _ _ _

theorem sortStrings_perm (l : List String) : sortStrings l ~ l := by
  induction l with
  | nil => rfl
  | cons x xs ih =>
    unfold sortStrings at ih ⊢
    simp only [List.foldr_cons]
    calc insertSorted x (xs.foldr insertSorted []) ~ x :: xs.foldr insertSorted [] :=
          insertSorted_perm _ _
      _ ~ x :: xs := ih.cons x

theorem insertSorted_sorted (x : String) (l : List String)
    (h : SortedStr l) : SortedStr (insertSorted x l) := by
  induction l with
  | nil => simp [insertSorted, SortedStr]
  | cons y ys ih =>
    unfold insertSorted
    rcases List.pairwise_cons.mp h with ⟨hy, hys⟩
    by_cases hx : strLe x y = true
    · simp only [if_pos hx]
      refine List.pairwise_cons.mpr ⟨?_, h⟩
      intro z hz
      rcases List.mem_cons.mp hz with rfl | hz
      · exact hx
      · exact strLe_trans hx (hy z hz)
    · simp only [if_neg hx]
      refine List.pairwise_cons.mpr ⟨?_, ih hys⟩
      intro z hz
      have hz2 := (insertSorted_perm x ys).mem_iff.mp hz
      rcases List.mem_cons.mp hz2 with rfl | hz3
      · rcases strLe_total z y with h2 | h2
        · exact absurd h2 hx
        · exact h2
      · exact hy z hz3

theorem sortStrings_sorted (l : List String) : SortedStr (sortStrings l) := by
  induction l with
  | nil => simp [sortStrings, SortedStr]
  | cons x xs ih =>
    unfold sortStrings at ih ⊢
    simpa using insertSorted_sorted x _ ih

theorem sortStrings_eq_of_perm {l1 l2 : List String} (h : l1 ~ l2) :
    sortStrings l1 = sortStrings l2 := by
  have hp : sortStrings l1 ~ sortStrings l2 :=
    ((sortStrings_perm l1).trans h).trans (sortStrings_perm l2).symm
  exact List.eq_of_perm_of_sorted hp (sortStrings_sorted l1) (sortStrings_sorted l2)

/-- The sorted JavaScript Set contents coincide with the
specification-side sorted deduplication. -/
theorem sortStrings_dedupKF (l : List String) :
    sortStrings (dedupKF l) = sortedDedupSpec l :=
  sortStrings_eq_of_perm (dedupKF_perm_dedup l)

/-! ### Diagnostic strings -/

theorem strContains_of_isPrefix {s pat : String} (h : pat.data <+: s.data) :
    strContains s pat = true := by
  unfold strContains
  apply List.any_eq_true.mpr
  refine ⟨0, ?_, ?_⟩
  · simp [List.mem_range]
  · simpa [List.isPrefixOf_iff_prefix] using h

theorem nodeLimitMsg_contains (n : Nat) :
    strContains (nodeLimitMsg n) "Node limit" = true := by
  apply strContains_of_isPrefix
  unfold nodeLimitMsg
  rw [String.data_append, String.data_append]
  have hsplit : ("Node limit " : String).data = ("Node limit" : String).data ++ [' '] := by
    decide
  rw [hsplit, List.append_assoc]
  exact ⟨_, rfl⟩

theorem fileNotFoundMsg_ne_nodeLimitMsg (f : String) (n : Nat) :
    fileNotFoundMsg f ≠ nodeLimitMsg n := by
  intro h
  have hd := congrArg String.data h
  unfold fileNotFoundMsg nodeLimitMsg at hd
  rw [String.data_append, String.data_append, String.data_append] at hd
  have h1 : ("File not found: " : String).data = 'F' :: ("ile not found: " : String).data := by
    decide
  have h2 : ("Node limit " : String).data = 'N' :: ("ode limit " : String).data := by
    decide
  rw [h1, h2] at hd
  simp at hd

theorem classNotFoundMsg_ne_nodeLimitMsg (c f : String) (n : Nat) :
    classNotFoundMsg c f ≠ nodeLimitMsg n := by
  intro h
  have hd := congrArg String.data h
  unfold classNotFoundMsg nodeLimitMsg at hd
  repeat rw [String.data_append] at hd
  have h1 : ("Class " : String).data = 'C' :: ("lass " : String).data := by decide
  have h2 : ("Node limit " : String).data = 'N' :: ("ode limit " : String).data := by
    decide
  rw [h1, h2] at hd
  simp at hd

/-- Fold preservation of a predicate. -/
theorem foldl_preserve {α β : Type} (P : α → Prop) (f : α → β → α) :
    ∀ (l : List β) (init : α), P init → (∀ a b, P a → P (f a b)) →
      P (l.foldl f init) := by
  intro l
  induction l with
  | nil => intro init h _; exact h
  | cons b bs ih =>
    intro init h hstep
    exact ih (f init b) (hstep init b h) hstep

/-! ### Method union lemmas (claim C4) -/

theorem methodUnion_foldl (nodes : List GraphNode) : ∀ acc : List String,
    nodes.foldl (fun acc n =>
      match n.kind, n.direct with
      | .component, some d => d.allMethodsUsed.foldl jsSetAdd acc
      | _, _ => acc) acc
      = (componentMethodLists nodes).foldl jsSetAdd acc := by
  induction nodes with
  | nil => intro acc; simp [componentMethodLists]
  | cons n ns ih =>
    intro acc
    cases hk : n.kind <;> cases hd : n.direct <;>
      simp [componentMethodLists, List.foldl_append, ih, hk, hd]

/-- C4: for every pair of candidate maps, the finalized union field is the
sorted deduplicated union of the reported instance method lists, each
reported method list is itself sorted, and for every traversal the
aggregate is the sorted deduplicated union of the component nodes' method
unions. -/
theorem C4_method_union :
    (∀ m1 m2 : JsMap,
      (finalizeSummaries m1 m2).2 =
        sortedDedupSpec ((finalizeSummaries m1 m2).1.flatMap (fun i => i.methodsUsed)) ∧
      ∀ i ∈ (finalizeSummaries m1 m2).1, SortedStr i.methodsUsed) ∧
    (∀ (env : Env) (req : Request),
      (RecursiveGraphAnalyzer.analyze env req).aggregate.allMethodsUsed =
        sortedDedupSpec (componentMethodLists (RecursiveGraphAnalyzer.analyze env req).nodes)) := by
  constructor
  · intro m1 m2
    constructor
    · unfold finalizeSummaries
      simp only []
      exact sortStrings_dedupKF _
    · intro i hi
      unfold finalizeSummaries at hi
      simp only [List.mem_map] at hi
      obtain ⟨r, _, rfl⟩ := hi
      exact sortStrings_sorted _
  · intro env req
    unfold RecursiveGraphAnalyzer.analyze
    simp only []
    rw [methodUnion_foldl]
    exact sortStrings_dedupKF _

/-! ### Import resolver lemmas (claim C8) -/

theorem importStep_not_matched (targets : List String) (acc : ImportMatchResult)
    (decl : ImportDecl) (h : decl.moduleSpecifier ∉ targets) :
    importStep targets acc decl = acc := by
  simp [importStep, h]

theorem namedFold_spec (specs : List NamedImportSpec) : ∀ acc : ImportMatchResult,
    (specs.foldl namedImportStep acc).matchedModuleSpecifiers =
      acc.matchedModuleSpecifiers ∧
    (specs.foldl namedImportStep acc).namespaceLocalNames = acc.namespaceLocalNames ∧
    (∀ x, x ∈ (specs.foldl namedImportStep acc).importedLocalNames ↔
      x ∈ acc.importedLocalNames ∨ x ∈ specs.map aliasOrName) := by
  induction specs with
  | nil => intro acc; simp
  | cons sp sps ih =>
    intro acc
    have h := ih (namedImportStep acc sp)
    refine ⟨?_, ?_, ?_⟩
    · rw [List.foldl_cons, h.1]; rfl
    · rw [List.foldl_cons, h.2.1]; rfl
    · intro x
      rw [List.foldl_cons, h.2.2 x]
      simp only [namedImportStep, mem_jsSetAdd, List.map_cons, List.mem_cons]
      tauto

theorem importStep_matched (targets : List String) (acc : ImportMatchResult)
    (decl : ImportDecl) (h : decl.moduleSpecifier ∈ targets) :
    (importStep targets acc decl).matchedModuleSpecifiers =
      acc.matchedModuleSpecifiers ++ [decl.moduleSpecifier] ∧
    (∀ x, x ∈ (importStep targets acc decl).importedLocalNames ↔
      x ∈ acc.importedLocalNames ∨ x ∈ decl.namedImports.map aliasOrName ∨
        decl.defaultImport = some x) ∧
    (∀ x, x ∈ (importStep targets acc decl).namespaceLocalNames ↔
      x ∈ acc.namespaceLocalNames ∨ decl.namespaceImport = some x) := by
  unfold importStep
  simp only [if_pos h]
  have hn := namedFold_spec decl.namedImports
    { acc with matchedModuleSpecifiers := acc.matchedModuleSpecifiers ++ [decl.moduleSpecifier] }
  cases hdef : decl.defaultImport with
  | none =>
    cases hns : decl.namespaceImport with
    | none =>
      refine ⟨(hn).1, ?_, ?_⟩
      · intro x
        rw [(hn).2.2 x]
        simp
      · intro x
        rw [(hn).2.1]
        simp
    | some nsv =>
      refine ⟨(hn).1, ?_, ?_⟩
      · intro x
        rw [(hn).2.2 x]
        simp
      · intro x
        rw [mem_jsSetAdd, (hn).2.1]
        simp only [Option.some.injEq]
        tauto
  | some dv =>
    cases hns : decl.namespaceImport with
    | none =>
      refine ⟨(hn).1, ?_, ?_⟩
      · intro x
        rw [mem_jsSetAdd, (hn).2.2 x]
        simp only [Option.some.injEq]
        constructor
        · rintro ((h1 | h1) | rfl)
          · exact Or.inl h1
          · exact Or.inr (Or.inl h1)
          · exact Or.inr (Or.inr rfl)
        · rintro (h1 | h1 | rfl)
          · exact Or.inl (Or.inl h1)
          · exact Or.inl (Or.inr h1)
          · exact Or.inr rfl
      · intro x
        rw [(hn).2.1]
        simp
    | some nsv =>
      refine ⟨(hn).1, ?_, ?_⟩
      · intro x
        rw [mem_jsSetAdd, (hn).2.2 x]
        simp only [Option.some.injEq]
        constructor
        · rintro ((h1 | h1) | rfl)
          · exact Or.inl h1
          · exact Or.inr (Or.inl h1)
          · exact Or.inr (Or.inr rfl)
        · rintro (h1 | h1 | rfl)
          · exact Or.inl (Or.inl h1)
          · exact Or.inl (Or.inr h1)
          · exact Or.inr rfl
      · intro x
        rw [mem_jsSetAdd, (hn).2.1]
        simp only [Option.some.injEq]
        tauto

theorem collectAux_spec (targets : List String) : ∀ (decls : List ImportDecl)
    (acc : ImportMatchResult),
    (decls.foldl (importStep targets) acc).matchedModuleSpecifiers =
      acc.matchedModuleSpecifiers ++
        (decls.map (fun d => d.moduleSpecifier)).filter (fun m => decide (m ∈ targets)) ∧
    (∀ x, x ∈ (decls.foldl (importStep targets) acc).importedLocalNames ↔
      x ∈ acc.importedLocalNames ∨ ∃ d, d ∈ decls ∧ d.moduleSpecifier ∈ targets ∧
        (x ∈ d.namedImports.map aliasOrName ∨ d.defaultImport = some x)) ∧
    (∀ x, x ∈ (decls.foldl (importStep targets) acc).namespaceLocalNames ↔
      x ∈ acc.namespaceLocalNames ∨ ∃ d, d ∈ decls ∧ d.moduleSpecifier ∈ targets ∧
        d.namespaceImport = some x) ∧
    ((∀ d ∈ decls, d.moduleSpecifier ∉ targets) →
      decls.foldl (importStep targets) acc = acc) := by
  intro decls
  induction decls with
  | nil => intro acc; simp
  | cons d ds ih =>
    intro acc
    by_cases hd : d.moduleSpecifier ∈ targets
    · have hstep := importStep_matched targets acc d hd
      have hrest := ih (importStep targets acc d)
      refine ⟨?_, ?_, ?_, ?_⟩
      · rw [List.foldl_cons, hrest.1, hstep.1]
        simp [hd, List.append_assoc]
      · intro x
        rw [List.foldl_cons, hrest.2.1 x, hstep.2.1 x]
        constructor
        · rintro ((h1 | h1) | ⟨d2, hd2, hm2, hx2⟩)
          · exact Or.inl h1
          · exact Or.inr ⟨d, List.mem_cons_self d ds, hd, h1⟩
          · exact Or.inr ⟨d2, List.mem_cons_of_mem d hd2, hm2, hx2⟩
        · rintro (h1 | ⟨d2, hd2, hm2, hx2⟩)
          · exact Or.inl (Or.inl h1)
          · rcases List.mem_cons.mp hd2 with rfl | hd3
            · exact Or.inl (Or.inr hx2)
            · exact Or.inr ⟨d2, hd3, hm2, hx2⟩
      · intro x
        rw [List.foldl_cons, hrest.2.2.1 x, hstep.2.2 x]
        constructor
        · rintro ((h1 | h1) | ⟨d2, hd2, hm2, hx2⟩)
          · exact Or.inl h1
          · exact Or.inr ⟨d, List.mem_cons_self d ds, hd, h1⟩
          · exact Or.inr ⟨d2, List.mem_cons_of_mem d hd2, hm2, hx2⟩
        · rintro (h1 | ⟨d2, hd2, hm2, hx2⟩)
          · exact Or.inl (Or.inl h1)
          · rcases List.mem_cons.mp hd2 with rfl | hd3
            · exact Or.inl (Or.inr hx2)
            · exact Or.inr ⟨d2, hd3, hm2, hx2⟩
      · intro hnone
        exact absurd hd (hnone d (List.mem_cons_self d ds))
    · have hstep := importStep_not_matched targets acc d hd
      have hrest := ih acc
      refine ⟨?_, ?_, ?_, ?_⟩
      · rw [List.foldl_cons, hstep, hrest.1]
        simp [hd]
      · intro x
        rw [List.foldl_cons, hstep, hrest.2.1 x]
        constructor
        · rintro (h1 | ⟨d2, hd2, hm2, hx2⟩)
          · exact Or.inl h1
          · exact Or.inr ⟨d2, List.mem_cons_of_mem d hd2, hm2, hx2⟩
        · rintro (h1 | ⟨d2, hd2, hm2, hx2⟩)
          · exact Or.inl h1
          · rcases List.mem_cons.mp hd2 with rfl | hd3
            · exact absurd hm2 hd
            · exact Or.inr ⟨d2, hd3, hm2, hx2⟩
      · intro x
        rw [List.foldl_cons, hstep, hrest.2.2.1 x]
        constructor
        · rintro (h1 | ⟨d2, hd2, hm2, hx2⟩)
          · exact Or.inl h1
          · exact Or.inr ⟨d2, List.mem_cons_of_mem d hd2, hm2, hx2⟩
        · rintro (h1 | ⟨d2, hd2, hm2, hx2⟩)
          · exact Or.inl h1
          · rcases List.mem_cons.mp hd2 with rfl | hd3
            · exact absurd hm2 hd
            · exact Or.inr ⟨d2, hd3, hm2, hx2⟩
      · intro hnone
        rw [List.foldl_cons, hstep]
        exact hrest.2.2.2 (fun d2 hd2 => hnone d2 (List.mem_cons_of_mem d hd2))

/-- C8: the import resolver is a total function whose matched specifiers
are exactly the file's declarations with an allow-listed module, whose
imported local names are the alias-resolved named and default imports of
matched declarations, whose namespace names are the namespace imports of
matched declarations, and which returns only empty collections when no
declaration matches. -/
theorem C8_import_resolver : ∀ (decls : List ImportDecl) (targets : List String),
    (collectTargetImportsForFile decls targets).matchedModuleSpecifiers =
      (decls.map (fun d => d.moduleSpecifier)).filter (fun m => decide (m ∈ targets)) ∧
    (∀ x, x ∈ (collectTargetImportsForFile decls targets).importedLocalNames ↔
      ∃ d, d ∈ decls ∧ d.moduleSpecifier ∈ targets ∧
        (x ∈ d.namedImports.map aliasOrName ∨ d.defaultImport = some x)) ∧
    (∀ x, x ∈ (collectTargetImportsForFile decls targets).namespaceLocalNames ↔
      ∃ d, d ∈ decls ∧ d.moduleSpecifier ∈ targets ∧ d.namespaceImport = some x) ∧
    ((∀ d ∈ decls, d.moduleSpecifier ∉ targets) →
      collectTargetImportsForFile decls targets = ⟨[], [], [], []⟩) := by
  intro decls targets
  have h := collectAux_spec targets decls ⟨[], [], [], []⟩
  unfold collectTargetImportsForFile
  refine ⟨?_, ?_, ?_, ?_⟩
  · rw [h.1]; rfl
  · intro x
    rw [h.2.1 x]
    simp
  · intro x
    rw [h.2.2.1 x]
    simp
  · exact h.2.2.2

/-- Witness for C8: a file importing only from a module outside the
allow-list produces empty collections. -/
theorem C8_import_resolver_witness :
    collectTargetImportsForFile [⟨"other", [], none, none⟩] ["lib"] = ⟨[], [], [], []⟩ :=
  (C8_import_resolver [⟨"other", [], none, none⟩] ["lib"]).2.2.2 (by decide)

/-! ### Component analyzer reset and idempotence (claim C5) -/

/-- C5: the component analyzer resets every output field before producing
new results, so the produced state does not depend on the previous state
whenever the source file loads, and re-running on an unchanged source is
idempotent. -/
theorem C5_analyze_idempotent_reset : ∀ (env : Env) (input : AnalyzerInput)
    (s s2 : AnalyzerState),
    AngularComponentAnalyzer.analyze env input
        (AngularComponentAnalyzer.analyze env input s) =
      AngularComponentAnalyzer.analyze env input s ∧
    ((findFile env input.sourceFilePath).isSome = true →
      AngularComponentAnalyzer.analyze env input s =
        AngularComponentAnalyzer.analyze env input s2) := by
  intro env input s s2
  cases h : findFile env input.sourceFilePath with
  | none =>
    constructor
    · simp [AngularComponentAnalyzer.analyze, h]
    · intro hs
      simp at hs
  | some f =>
    constructor
    · simp only [AngularComponentAnalyzer.analyze, h]
    · intro _
      simp only [AngularComponentAnalyzer.analyze, h]

/-- Witness for C5: state independence on a concrete loadable file. -/
theorem C5_analyze_idempotent_reset_witness :
    AngularComponentAnalyzer.analyze envC9 ⟨"/m/a.ts", "A", some ["lib"]⟩ {} =
      AngularComponentAnalyzer.analyze envC9 ⟨"/m/a.ts", "A", some ["lib"]⟩
        { inlineTemplate := some "stale" } :=
  (C5_analyze_idempotent_reset envC9 ⟨"/m/a.ts", "A", some ["lib"]⟩ {}
    { inlineTemplate := some "stale" }).2 (by decide)

/-! ### Template metadata (claim C6) -/

/-- C6 counterexample: a malformed component declaring both templateUrl and
an inline template gets both fields populated, refuting never-both. -/
theorem C6_counterexample :
    (extractTemplateInfo clsBoth "/app/c.ts").1 = some "/app/c.html" ∧
    (extractTemplateInfo clsBoth "/app/c.ts").2 = some "hello" := by
  decide

theorem extractTemplateInfo_fst (cls : EnvClass) (p : String) :
    (extractTemplateInfo cls p).1 =
      (if "Component" ∈ cls.decorators then
        match cls.componentArg with
        | none => none
        | some obj =>
          match obj.templateUrlInit with
          | some init =>
            if init.kind = InitKind.strLit then
              some (pathResolve (pathDirname p) init.value)
            else none
          | none => none
      else none) := by
  unfold extractTemplateInfo
  split
  · cases cls.componentArg with
    | none => rfl
    | some obj => rfl
  · rfl

theorem extractTemplateInfo_snd (cls : EnvClass) (p : String) :
    (extractTemplateInfo cls p).2 =
      (if "Component" ∈ cls.decorators then
        match cls.componentArg with
        | none => none
        | some obj =>
          match obj.templateInit with
          | some init =>
            match init.kind with
            | .strLit => some init.value
            | .noSubTemplateLit => some init.value
            | .templateExpr => some init.raw
            | .otherKind => none
          | none => none
      else none) := by
  unfold extractTemplateInfo
  split
  · cases cls.componentArg with
    | none => rfl
    | some obj => rfl
  · rfl

/-- C6 amended: each template field is populated only from its own declared
decorator property (of the accepted literal kinds), so a component whose
decorator object declares at most one of the two properties gets at most
one populated field; when both are declared, both are returned as
discovered. -/
theorem C6_template_fields : ∀ (cls : EnvClass) (p : String),
    ((extractTemplateInfo cls p).1.isSome = true →
      ∃ obj init, cls.componentArg = some obj ∧ obj.templateUrlInit = some init ∧
        init.kind = InitKind.strLit) ∧
    ((extractTemplateInfo cls p).2.isSome = true →
      ∃ obj init, cls.componentArg = some obj ∧ obj.templateInit = some init ∧
        (init.kind = InitKind.strLit ∨ init.kind = InitKind.noSubTemplateLit ∨
          init.kind = InitKind.templateExpr)) := by
  intro cls p
  constructor
  · intro h1
    rw [extractTemplateInfo_fst] at h1
    split at h1
    · split at h1
      · simp at h1
      · rename_i obj harg
        split at h1
        · rename_i init hurl
          split at h1
          · rename_i hk
            exact ⟨obj, init, harg, hurl, hk⟩
          · simp at h1
        · simp at h1
    · simp at h1
  · intro h2
    rw [extractTemplateInfo_snd] at h2
    split at h2
    · split at h2
      · simp at h2
      · rename_i obj harg
        split at h2
        · rename_i init htpl
          refine ⟨obj, init, harg, htpl, ?_⟩
          split at h2
          · exact Or.inl (by assumption)
          · exact Or.inr (Or.inl (by assumption))
          · exact Or.inr (Or.inr (by assumption))
          · simp at h2
        · simp at h2
    · simp at h2

/-- Witness for C6: the populated-only-from direction applied at the
concrete malformed component. -/
theorem C6_template_fields_witness :
    ∃ obj init, clsBoth.componentArg = some obj ∧ obj.templateUrlInit = some init ∧
      init.kind = InitKind.strLit :=
  (C6_template_fields clsBoth "/app/c.ts").1 (by decide)

/-! ### Candidate-map uniqueness (claim C7) -/

theorem scanInsert_good (imported ns : List String) (m : JsMap) (k t : String)
    (h : GoodMap m) : GoodMap (scanInsert imported ns m k t) := by
  unfold scanInsert
  by_cases ht : t = ""
  · simpa [if_pos ht]
  · simp only [if_neg ht]
    cases hm : matchType t imported ns with
    | none => exact h
    | some tn =>
      by_cases hh : jsMapHas m k = true
      · simpa [hh]
      · simp only [hh, Bool.false_eq_true, if_false, if_neg]
        have hknot : ∀ kv ∈ m, ¬ kv.1 = k := by
          intro kv hkv hkk
          apply hh
          unfold jsMapHas
          exact List.any_eq_true.mpr ⟨kv, hkv, by simp [hkk]⟩
        constructor
        · unfold jsMapSetNew
          rw [List.map_append]
          simp only [List.map_cons, List.map_nil]
          rw [List.nodup_append]
          refine ⟨h.1, List.nodup_singleton k, ?_⟩
          intro a ha hb
          simp only [List.mem_singleton] at hb
          subst hb
          obtain ⟨kv, hkv, hkk⟩ := List.mem_map.mp ha
          exact hknot kv hkv hkk
        · intro kv hkv
          unfold jsMapSetNew at hkv
          rcases List.mem_append.mp hkv with h1 | h1
          · exact h.2 kv h1
          · simp only [List.mem_singleton] at h1
            subst h1
            rfl

theorem collectTargetInstances_good (cls : EnvClass) (imported ns : List String) :
    GoodMap (collectTargetInstances cls imported ns) := by
  unfold collectTargetInstances
  have hbase : GoodMap ([] : JsMap) := ⟨List.nodup_nil, by intro kv h; simp at h⟩
  have hctor : GoodMap (match cls.ctors.head? with
    | none => ([] : JsMap)
    | some ctor => ctor.params.foldl (fun m p =>
        if p.hasScope then
          scanInsert imported ns m p.name (p.typeNodeText.getD p.inferredType)
        else m) ([] : JsMap)) := by
    cases cls.ctors.head? with
    | none => exact hbase
    | some ctor =>
      apply foldl_preserve _ _ _ _ hbase
      intro m p hm
      by_cases hp : p.hasScope
      · simpa [hp] using scanInsert_good imported ns m p.name _ hm
      · simpa [hp] using hm
  apply foldl_preserve _ _ _ _ hctor
  intro m p hm
  cases hp : p.typeNodeText with
  | none => exact hm
  | some t => exact scanInsert_good imported ns m p.name t hm

theorem collectCtorOnlyParams_good (cls : EnvClass) (imported ns : List String) :
    GoodMap (collectCtorOnlyParams cls imported ns) := by
  unfold collectCtorOnlyParams
  have hbase : GoodMap ([] : JsMap) := ⟨List.nodup_nil, by intro kv h; simp at h⟩
  cases cls.ctors.head? with
  | none => exact hbase
  | some ctor =>
    apply foldl_preserve _ _ _ _ hbase
    intro m p hm
    by_cases hp : p.hasScope
    · simpa [hp] using hm
    · simpa [hp] using scanInsert_good imported ns m p.name _ hm

/-- C7 amended: member-name uniqueness with first occurrence winning holds
within the field-backed candidate map and within the constructor-only
candidate map separately; each map stores records under their own property
name. -/
theorem C7_unique_member_names : ∀ (cls : EnvClass) (imported ns : List String),
    (((collectTargetInstances cls imported ns).map (fun kv => kv.1)).Nodup ∧
      ∀ kv ∈ collectTargetInstances cls imported ns, kv.2.propertyName = kv.1) ∧
    (((collectCtorOnlyParams cls imported ns).map (fun kv => kv.1)).Nodup ∧
      ∀ kv ∈ collectCtorOnlyParams cls imported ns, kv.2.propertyName = kv.1) :=
  fun cls imported ns =>
    ⟨collectTargetInstances_good cls imported ns, collectCtorOnlyParams_good cls imported ns⟩

/-- C7 counterexample: the merged instance list may repeat a property name
when a class property and a plain constructor parameter share it, so
uniqueness does not span the merged final list. -/
theorem C7_counterexample :
    ¬ (((AngularComponentAnalyzer.analyze envC7 ⟨"/m/b.ts", "B", some ["lib"]⟩
      {}).serviceInstancesFromTargetModules.map (fun i => i.propertyName)).Nodup) := by
  decide

/-! ### Instance and method reporting (claim C9) -/

/-- C9: the concrete component with a constructor parameter property of an
allow-listed type and two calls on it reports exactly the expected
summary. -/
theorem C9_instance_summary :
    (AngularComponentAnalyzer.analyze envC9 ⟨"/m/a.ts", "A", some ["lib"]⟩
      {}).serviceInstancesFromTargetModules =
      [⟨"svc", "Svc", ["load", "save"]⟩] := by
  decide

/-! ### Traversal-state lemmas for the loop invariants -/

theorem processItem_visited (env : Env) (req : Request) (st : TravState)
    (item : QueueItem) : (processItem env req st item).1.visited = st.visited := by
  simp only [processItem]
  split
  · rfl
  · split
    · rfl
    · split <;> rfl

theorem processItem_nodes (env : Env) (req : Request) (st : TravState)
    (item : QueueItem) :
    (processItem env req st item).1.nodes = st.nodes ∨
    ∃ nd, (processItem env req st item).1.nodes = st.nodes ++ [nd] ∧
      nd.file = item.file ∧ nd.className = item.className := by
  simp only [processItem]
  split
  · exact Or.inl rfl
  · split
    · exact Or.inl rfl
    · split
      · exact Or.inr ⟨_, rfl, rfl, rfl⟩
      · exact Or.inr ⟨_, rfl, rfl, rfl⟩

theorem processItem_diags (env : Env) (req : Request) (st : TravState)
    (item : QueueItem) :
    (processItem env req st item).1.diagnostics = st.diagnostics ∨
    (processItem env req st item).1.diagnostics =
      st.diagnostics ++ [fileNotFoundMsg item.file] ∨
    (processItem env req st item).1.diagnostics =
      st.diagnostics ++ [classNotFoundMsg item.className item.file] := by
  simp only [processItem]
  split
  · exact Or.inr (Or.inl rfl)
  · split
    · exact Or.inr (Or.inr rfl)
    · split <;> exact Or.inl rfl

/-- One-step invariant transfer for claim C1. -/
theorem processItem_nodesInv (env : Env) (req : Request) (st : TravState)
    (item : QueueItem) (hkey : nodeKey item.file item.className ∉ st.visited)
    (h : NodesInv st) :
    NodesInv (processItem env req
      { st with visited := jsSetAdd st.visited (nodeKey item.file item.className) }
      item).1 := by
  set st2 := { st with
    visited := jsSetAdd st.visited (nodeKey item.file item.className) } with hst2
  have hv := processItem_visited env req st2 item
  have hn := processItem_nodes env req st2 item
  constructor
  · rcases hn with hn | ⟨nd, hn, hf, hc⟩
    · rw [hn]
      exact h.1
    · rw [hn, List.map_append]
      simp only [List.map_cons, List.map_nil]
      rw [List.nodup_append]
      refine ⟨h.1, List.nodup_singleton _, ?_⟩
      intro a ha hb
      simp only [List.mem_singleton] at hb
      subst hb
      obtain ⟨n, hnn, hkeq⟩ := List.mem_map.mp ha
      rw [hf, hc] at hkeq
      exact hkey (hkeq ▸ h.2 n hnn)
  · intro n hnn
    rw [hv]
    rcases hn with hn | ⟨nd, hn, hf, hc⟩
    · rw [hn] at hnn
      exact (mem_jsSetAdd _ _ _).mpr (Or.inl (h.2 n hnn))
    · rw [hn] at hnn
      rcases List.mem_append.mp hnn with h1 | h1
      · exact (mem_jsSetAdd _ _ _).mpr (Or.inl (h.2 n h1))
      · simp only [List.mem_singleton] at h1
        subst h1
        rw [hf, hc]
        exact (mem_jsSetAdd _ _ _).mpr (Or.inr rfl)

/-- The loop preserves the claim C1 invariant. -/
theorem loopRun_nodesInv (env : Env) (req : Request) (mN : Nat) (mD : Option Nat) :
    ∀ (fuel : Nat) (queue : List QueueItem) (st : TravState), NodesInv st →
      NodesInv (loopRun env req mN mD fuel queue st).1 := by
  intro fuel
  induction fuel with
  | zero =>
    intro queue st h
    cases queue with
    | nil => exact h
    | cons item rest => exact h
  | succ n ih =>
    intro queue st h
    cases queue with
    | nil => exact h
    | cons item rest =>
      rw [loopRun]
      split
      · exact ih rest st h
      · rename_i hvis
        split
        · exact h
        · split
          · exact ih rest st h
          · exact ih _ _ (processItem_nodesInv env req st item hvis h)

/-- The loop preserves the node-count bound of claim C2. -/
theorem loopRun_nodes_le (env : Env) (req : Request) (mN : Nat) (mD : Option Nat) :
    ∀ (fuel : Nat) (queue : List QueueItem) (st : TravState),
      st.nodes.length ≤ mN →
      (loopRun env req mN mD fuel queue st).1.nodes.length ≤ mN := by
  intro fuel
  induction fuel with
  | zero =>
    intro queue st h
    cases queue with
    | nil => exact h
    | cons item rest => exact h
  | succ n ih =>
    intro queue st h
    cases queue with
    | nil => exact h
    | cons item rest =>
      rw [loopRun]
      split
      · exact ih rest st h
      · split
        · exact h
        · rename_i hceil
          split
          · exact ih rest st h
          · apply ih
            set st2 := { st with
              visited := jsSetAdd st.visited (nodeKey item.file item.className) }
            have hn := processItem_nodes env req st2 item
            have hlt : st.nodes.length < mN := Nat.lt_of_not_le hceil
            rcases hn with hn | ⟨nd, hn, _, _⟩
            · rw [hn]
              exact Nat.le_of_lt hlt
            · rw [hn, List.length_append]
              simpa using hlt

/-- The loop appends the node-ceiling diagnostic at most once. -/
theorem loopRun_count (env : Env) (req : Request) (mN : Nat) (mD : Option Nat) :
    ∀ (fuel : Nat) (queue : List QueueItem) (st : TravState),
      nodeLimitMsg mN ∉ st.diagnostics →
      ((loopRun env req mN mD fuel queue st).1.diagnostics.count (nodeLimitMsg mN)) ≤ 1 := by
  intro fuel
  induction fuel with
  | zero =>
    intro queue st h
    cases queue with
    | nil =>
      rw [loopRun]
      simp [List.count_eq_zero.mpr h]
    | cons item rest =>
      rw [loopRun]
      simp [List.count_eq_zero.mpr h]
  | succ n ih =>
    intro queue st h
    cases queue with
    | nil =>
      rw [loopRun]
      simp [List.count_eq_zero.mpr h]
    | cons item rest =>
      rw [loopRun]
      split
      · exact ih rest st h
      · split
        · simp [List.count_append, List.count_eq_zero.mpr h]
        · split
          · exact ih rest st h
          · apply ih
            set st2 := { st with
              visited := jsSetAdd st.visited (nodeKey item.file item.className) }
            have hd := processItem_diags env req st2 item
            intro hmem
            rcases hd with hd | hd | hd
            · rw [hd] at hmem
              exact h hmem
            · rw [hd] at hmem
              rcases List.mem_append.mp hmem with h1 | h1
              · exact h h1
              · simp only [List.mem_singleton] at h1
                exact fileNotFoundMsg_ne_nodeLimitMsg item.file mN h1.symm
            · rw [hd] at hmem
              rcases List.mem_append.mp hmem with h1 | h1
              · exact h h1
              · simp only [List.mem_singleton] at h1
                exact classNotFoundMsg_ne_nodeLimitMsg item.className item.file mN h1.symm

/-! ### Claim C1 -/

/-- C1: no node identity appears twice in the output node list; every
identity is visited at most once per traversal. -/
theorem C1_no_duplicate_identities : ∀ (env : Env) (req : Request),
    ((RecursiveGraphAnalyzer.analyze env req).nodes.map nodeIdentity).Nodup := by
  intro env req
  have hinv : NodesInv (RecursiveGraphAnalyzer.analyzeAux env req).1 := by
    unfold RecursiveGraphAnalyzer.analyzeAux
    apply loopRun_nodesInv
    constructor
    · simp
    · intro n hn
      simp at hn
  have hkeys := hinv.1
  have hmapeq :
      ((RecursiveGraphAnalyzer.analyzeAux env req).1.nodes.map
        (fun n => nodeKey n.file n.className)) =
      (((RecursiveGraphAnalyzer.analyzeAux env req).1.nodes.map nodeIdentity).map
        (fun p => nodeKey p.1 p.2)) := by
    rw [List.map_map]
    rfl
  rw [hmapeq] at hkeys
  exact List.Nodup.of_map _ hkeys

/-! ### Claim C2 -/

/-- C2 counterexample: a missing root file whose path contains the text
Node limit makes truncated true although the node-ceiling diagnostic never
fired, refuting the stated equivalence. -/
theorem C2_counterexample :
    (RecursiveGraphAnalyzer.analyze envEmpty reqAdversarial).limits.truncated = true ∧
    (RecursiveGraphAnalyzer.analyze envEmpty reqAdversarial).diagnostics.count
      (nodeLimitMsg 500) = 0 ∧
    (RecursiveGraphAnalyzer.analyze envEmpty reqAdversarial).nodes = [] := by
  refine ⟨by decide, by decide, by decide⟩

/-- C2 amended: the node list never exceeds the ceiling; when the
node-ceiling diagnostic fired it fired exactly once and truncated is true;
and truncated equals the substring test over the diagnostics, which the
ceiling diagnostic implies but which adversarial diagnostics can also
satisfy. -/
theorem C2_node_ceiling : ∀ (env : Env) (req : Request),
    (RecursiveGraphAnalyzer.analyze env req).nodes.length ≤ req.maxNodes.getD 500 ∧
    (nodeLimitMsg (req.maxNodes.getD 500) ∈
        (RecursiveGraphAnalyzer.analyze env req).diagnostics →
      (RecursiveGraphAnalyzer.analyze env req).diagnostics.count
          (nodeLimitMsg (req.maxNodes.getD 500)) = 1 ∧
        (RecursiveGraphAnalyzer.analyze env req).limits.truncated = true) ∧
    (RecursiveGraphAnalyzer.analyze env req).limits.truncated =
      (RecursiveGraphAnalyzer.analyze env req).diagnostics.any
        (fun d => strContains d "Node limit") := by
  intro env req
  have hlen : (RecursiveGraphAnalyzer.analyzeAux env req).1.nodes.length ≤
      req.maxNodes.getD 500 := by
    unfold RecursiveGraphAnalyzer.analyzeAux
    apply loopRun_nodes_le
    simp
  have hcount : ((RecursiveGraphAnalyzer.analyzeAux env req).1.diagnostics.count
      (nodeLimitMsg (req.maxNodes.getD 500))) ≤ 1 := by
    unfold RecursiveGraphAnalyzer.analyzeAux
    apply loopRun_count
    simp
  refine ⟨hlen, ?_, rfl⟩
  intro hmem
  constructor
  · have hpos : 0 < (RecursiveGraphAnalyzer.analyze env req).diagnostics.count
        (nodeLimitMsg (req.maxNodes.getD 500)) := List.count_pos_iff.mpr hmem
    exact Nat.le_antisymm hcount hpos
  · show ((RecursiveGraphAnalyzer.analyzeAux env req).1.diagnostics.any
      (fun d => strContains d "Node limit")) = true
    exact List.any_eq_true.mpr ⟨_, hmem, nodeLimitMsg_contains _⟩

/-- Witness for C2: the two-component environment under a ceiling of one
fires the diagnostic exactly once with truncated true. -/
theorem C2_node_ceiling_witness :
    (RecursiveGraphAnalyzer.analyze envCycle reqCeiling).diagnostics.count
        (nodeLimitMsg 1) = 1 ∧
      (RecursiveGraphAnalyzer.analyze envCycle reqCeiling).limits.truncated = true :=
  (C2_node_ceiling envCycle reqCeiling).2.1 (by decide)

/-! ### Selector-index invariant (towards claim C3) -/

theorem foldl_preserve_mem {α β : Type} (P : α → Prop) (f : α → β → α) :
    ∀ (l : List β) (init : α), P init → (∀ a b, b ∈ l → P a → P (f a b)) →
      P (l.foldl f init) := by
  intro l
  induction l with
  | nil => intro init h _; exact h
  | cons b bs ih =>
    intro init h hstep
    exact ih (f init b) (hstep init b (List.mem_cons_self b bs) h)
      (fun a b2 hb2 => hstep a b2 (List.mem_cons_of_mem b hb2))

theorem idxLookup_set_self (idx : SelIndex) (k : String) (v : List SelEntry) :
    idxLookup (idxSet idx k v) k = some v := by
  induction idx with
  | nil => simp [idxSet, idxLookup]
  | cons kv0 rest ih =>
    unfold idxSet
    by_cases h : kv0.1 = k
    · simp [idxLookup, h]
    · simp only [if_neg h]
      unfold idxLookup at ih ⊢
      simp only [List.find?_cons]
      have : (kv0.1 == k) = false := beq_eq_false_iff_ne.mpr h
      rw [this]
      exact ih

theorem idxLookup_set_ne (idx : SelIndex) (k k2 : String) (v : List SelEntry)
    (h : k2 ≠ k) : idxLookup (idxSet idx k v) k2 = idxLookup idx k2 := by
  induction idx with
  | nil =>
    simp only [idxSet, idxLookup, List.find?_cons, List.find?_nil]
    have hkk : (k == k2) = false := beq_eq_false_iff_ne.mpr (Ne.symm h)
    rw [hkk]
  | cons kv0 rest ih =>
    unfold idxSet
    by_cases h0 : kv0.1 = k
    · simp only [if_pos h0]
      unfold idxLookup
      simp only [List.find?_cons]
      have h1 : (k == k2) = false := beq_eq_false_iff_ne.mpr (Ne.symm h)
      have h2 : (kv0.1 == k2) = false := by
        rw [h0]
        exact h1
      rw [h1, h2]
    · simp only [if_neg h0]
      unfold idxLookup at ih ⊢
      simp only [List.find?_cons]
      cases hbeq : (kv0.1 == k2) with
      | true => rfl
      | false => exact ih

theorem idxBucket_set_self (idx : SelIndex) (k : String) (v : List SelEntry) :
    idxBucket (idxSet idx k v) k = v := by
  unfold idxBucket
  rw [idxLookup_set_self]
  rfl

theorem idxBucket_set_ne (idx : SelIndex) (k k2 : String) (v : List SelEntry)
    (h : k2 ≠ k) : idxBucket (idxSet idx k v) k2 = idxBucket idx k2 := by
  unfold idxBucket
  rw [idxLookup_set_ne idx k k2 v h]

theorem insertEntry_inv {env : Env} {idx : SelIndex} {part : String} {e : SelEntry}
    (h : IndexInv env idx) (hc : (part, e) ∈ canonPairs env) :
    IndexInv env (insertEntry idx part e) := by
  unfold insertEntry
  have hb : (idxLookup idx part).getD [] = idxBucket idx part := rfl
  rw [hb]
  by_cases hex : ((idxBucket idx part).any
      (fun x => x.file == e.file && x.className == e.className)) = true
  · simpa [hex] using h
  · simp only [hex, if_false, Bool.false_eq_true, if_neg]
    intro tag
    by_cases htag : tag = part
    · subst htag
      rw [idxBucket_set_self]
      constructor
      · rw [List.nodup_append]
        refine ⟨(h tag).1, List.nodup_singleton e, ?_⟩
        intro a ha hb2
        simp only [List.mem_singleton] at hb2
        subst hb2
        apply hex
        exact List.any_eq_true.mpr ⟨a, ha, by simp⟩
      · intro e2 he2
        rcases List.mem_append.mp he2 with h1 | h1
        · exact (h tag).2 e2 h1
        · simp only [List.mem_singleton] at h1
          subst h1
          exact hc
    · rw [idxBucket_set_ne _ _ _ _ htag]
      exact h tag

theorem addClassEntries_inv {env : Env} {idx : SelIndex} {f : EnvFile} {c : EnvClass}
    (h : IndexInv env idx) (hf : f ∈ env.files) (hc : c ∈ f.classes) :
    IndexInv env (addClassEntries idx f c) := by
  unfold addClassEntries
  by_cases hdec : "Component" ∈ c.decorators
  · simp only [if_pos hdec]
    cases hsel : getComponentSelector c with
    | none => exact h
    | some selector =>
      apply foldl_preserve_mem _ _ _ _ h
      intro idx2 part hpart hidx2
      apply insertEntry_inv hidx2
      unfold canonPairs
      apply List.mem_flatMap.mpr
      refine ⟨f, hf, ?_⟩
      apply List.mem_flatMap.mpr
      refine ⟨c, hc, ?_⟩
      rw [if_pos hdec, hsel]
      exact List.mem_map.mpr ⟨part, hpart, rfl⟩
  · simpa [hdec] using h

theorem addFileEntries_inv {env : Env} {idx : SelIndex} {f : EnvFile}
    (h : IndexInv env idx) (hf : f ∈ env.files) :
    IndexInv env (addFileEntries idx f) := by
  unfold addFileEntries
  apply foldl_preserve_mem _ _ _ _ h
  intro idx2 c hc hidx2
  exact addClassEntries_inv hidx2 hf hc

theorem indexInv_nil (env : Env) : IndexInv env [] := by
  intro tag
  constructor
  · exact List.nodup_nil
  · intro e he
    simp [idxBucket, idxLookup] at he

theorem buildSelectorIndexFull_inv (env : Env) (loaded : List String) :
    IndexInv env (buildSelectorIndexFull env loaded) := by
  unfold buildSelectorIndexFull
  apply foldl_preserve_mem _ _ _ _ (indexInv_nil env)
  intro idx f hf hidx
  obtain ⟨p, _, hfind⟩ := List.mem_filterMap.mp hf
  have hmem : f ∈ env.files := by
    unfold findFile at hfind
    exact List.mem_of_find?_eq_some hfind
  exact addFileEntries_inv hidx hmem

theorem tryLoadFile_fst_some {env : Env} {loaded : List String} {p : String}
    {f : EnvFile} (h : (tryLoadFile env loaded p).1 = some f) : f ∈ env.files := by
  unfold tryLoadFile at h
  cases hfind : findFile env p with
  | none => rw [hfind] at h; simp at h
  | some f2 =>
    rw [hfind] at h
    simp only [Option.some.injEq] at h
    subst h
    unfold findFile at hfind
    exact List.mem_of_find?_eq_some hfind

/-! ### Counting lemmas for the push bound -/

theorem length_filter_add_not {α : Type} (p : α → Bool) (l : List α) :
    (l.filter p).length + (l.filter (fun a => !(p a))).length = l.length := by
  induction l with
  | nil => rfl
  | cons a as ih =>
    rw [List.filter_cons, List.filter_cons]
    cases hp : p a
    · simp only [Bool.not_false, Bool.false_eq_true, if_false, if_true,
        List.length_cons]
      omega
    · simp only [Bool.not_true, Bool.false_eq_true, if_false, if_true,
        List.length_cons]
      omega

theorem bucket_le_filter {env : Env} {idx : SelIndex} (h : IndexInv env idx)
    (tag : String) :
    (idxBucket idx tag).length ≤
      ((canonPairs env).filter (fun pr => pr.1 == tag)).length := by
  have hnd : ((idxBucket idx tag).map (fun e => (tag, e))).Nodup :=
    (h tag).1.map (fun a b hab => by simpa using hab)
  have hsub : ((idxBucket idx tag).map (fun e => (tag, e))) ⊆
      (canonPairs env).filter (fun pr => pr.1 == tag) := by
    intro pr hpr
    obtain ⟨e, he, rfl⟩ := List.mem_map.mp hpr
    apply List.mem_filter.mpr
    exact ⟨(h tag).2 e he, by simp⟩
  have hlen := (List.subperm_of_subset hnd hsub).length_le
  simpa using hlen

theorem filter_filter_ne {t t2 : String} (h : t2 ≠ t)
    (canon : List (String × SelEntry)) :
    ((canon.filter (fun pr => !(pr.1 == t))).filter (fun pr => pr.1 == t2)) =
      canon.filter (fun pr => pr.1 == t2) := by
  induction canon with
  | nil => rfl
  | cons a rest ih =>
    by_cases ha : a.1 = t2
    · have hat : (a.1 == t) = false := beq_eq_false_iff_ne.mpr (ha ▸ h)
      have hat2 : (a.1 == t2) = true := beq_iff_eq.mpr ha
      simp [List.filter_cons, hat, hat2, ih]
    · have hat2 : (a.1 == t2) = false := beq_eq_false_iff_ne.mpr ha
      cases hat : (a.1 == t) <;> simp [List.filter_cons, hat, hat2, ih]

theorem sum_filter_le : ∀ (tags : List String), tags.Nodup →
    ∀ (canon : List (String × SelEntry)),
    (tags.map (fun t => (canon.filter (fun pr => pr.1 == t)).length)).sum ≤
      canon.length := by
  intro tags
  induction tags with
  | nil => intro _ canon; simp
  | cons t ts ih =>
    intro hnd canon
    rcases List.nodup_cons.mp hnd with ⟨hnott, hnd2⟩
    have hsplit := length_filter_add_not (fun pr => pr.1 == t) canon
    have hrew : (ts.map (fun t2 => (canon.filter (fun pr => pr.1 == t2)).length)) =
        (ts.map (fun t2 =>
          ((canon.filter (fun pr => !(pr.1 == t))).filter
            (fun pr => pr.1 == t2)).length)) := by
      apply List.map_congr_left
      intro t2 ht2
      have hne : t2 ≠ t := fun he => hnott (he ▸ ht2)
      rw [filter_filter_ne hne canon]
    have hrest := ih hnd2 (canon.filter (fun pr => !(pr.1 == t)))
    simp only [List.map_cons, List.sum_cons]
    rw [hrew]
    omega

theorem sum_buckets_le {env : Env} {idx : SelIndex} (h : IndexInv env idx)
    (tags : List String) (htags : tags.Nodup) :
    (tags.map (fun t => (idxBucket idx t).length)).sum ≤ (canonPairs env).length := by
  have h1 : (tags.map (fun t => (idxBucket idx t).length)).sum ≤
      (tags.map (fun t =>
        ((canonPairs env).filter (fun pr => pr.1 == t)).length)).sum := by
    apply List.sum_le_sum
    intro t _
    exact bucket_le_filter h t
  exact le_trans h1 (sum_filter_le tags htags (canonPairs env))

/-! ### Discovery push bounds and membership -/

theorem foldl_len_le {α β : Type} (f : List α → β → List α)
    (hf : ∀ acc b, (f acc b).length ≤ acc.length + 1) :
    ∀ (l : List β) (acc : List α), (l.foldl f acc).length ≤ acc.length + l.length := by
  intro l
  induction l with
  | nil => intro acc; simp
  | cons b bs ih =>
    intro acc
    calc (bs.foldl f (f acc b)).length ≤ (f acc b).length + bs.length := ih (f acc b)
      _ ≤ acc.length + 1 + bs.length := by
          have := hf acc b
          omega
      _ = acc.length + (b :: bs).length := by simp; omega

theorem tagPushStep_len (v : List String) (i : QueueItem)
    (acc : List DiscoveryEdge × List QueueItem) (comp : SelEntry) :
    (tagPushStep v i acc comp).2.length ≤ acc.2.length + 1 := by
  unfold tagPushStep
  split <;> simp

theorem foldl_tagPushStep_len (v : List String) (i : QueueItem) :
    ∀ (comps : List SelEntry) (acc : List DiscoveryEdge × List QueueItem),
      ((comps.foldl (tagPushStep v i) acc).2.length ≤ acc.2.length + comps.length) := by
  intro comps
  induction comps with
  | nil => intro acc; simp
  | cons c cs ih =>
    intro acc
    calc ((cs.foldl (tagPushStep v i) (tagPushStep v i acc c)).2.length) ≤
        (tagPushStep v i acc c).2.length + cs.length := ih _
      _ ≤ acc.2.length + 1 + cs.length := by
          have := tagPushStep_len v i acc c
          omega
      _ = acc.2.length + (c :: cs).length := by simp; omega

theorem tagScanStep_len (idx : SelIndex) (v : List String) (i : QueueItem)
    (acc : List DiscoveryEdge × List QueueItem) (sel : String) :
    (tagScanStep idx v i acc sel).2.length ≤ acc.2.length + (idxBucket idx sel).length := by
  unfold tagScanStep
  cases hl : idxLookup idx sel with
  | none => simp
  | some comps =>
    have hb : idxBucket idx sel = comps := by
      unfold idxBucket
      rw [hl]
      rfl
    rw [hb]
    exact foldl_tagPushStep_len v i comps acc

theorem tagDiscovery_fold_len (idx : SelIndex) (v : List String) (i : QueueItem) :
    ∀ (tags : List String) (acc : List DiscoveryEdge × List QueueItem),
      ((tags.foldl (tagScanStep idx v i) acc).2.length ≤
        acc.2.length + (tags.map (fun t => (idxBucket idx t).length)).sum) := by
  intro tags
  induction tags with
  | nil => intro acc; simp
  | cons t ts ih =>
    intro acc
    calc ((ts.foldl (tagScanStep idx v i) (tagScanStep idx v i acc t)).2.length) ≤
        (tagScanStep idx v i acc t).2.length +
          (ts.map (fun t2 => (idxBucket idx t2).length)).sum := ih _
      _ ≤ acc.2.length + (idxBucket idx t).length +
          (ts.map (fun t2 => (idxBucket idx t2).length)).sum := by
          have := tagScanStep_len idx v i acc t
          omega
      _ = acc.2.length + ((t :: ts).map (fun t2 => (idxBucket idx t2).length)).sum := by
          simp [Nat.add_assoc]

theorem tagDiscovery_le {env : Env} {idx : SelIndex} (h : IndexInv env idx)
    (v : List String) (i : QueueItem) (tags : List String) (htags : tags.Nodup) :
    (tagDiscovery idx v i tags).2.length ≤ (canonPairs env).length := by
  unfold tagDiscovery
  have h1 := tagDiscovery_fold_len idx v i tags ([], [])
  have h2 := sum_buckets_le h tags htags
  simp only [List.length_nil] at h1
  omega

theorem foldl_tagPushStep_mem (v : List String) (i : QueueItem) :
    ∀ (comps : List SelEntry) (acc : List DiscoveryEdge × List QueueItem)
      (it : QueueItem), it ∈ (comps.foldl (tagPushStep v i) acc).2 →
      it ∈ acc.2 ∨ ∃ comp ∈ comps,
        it = ⟨comp.file, comp.className, i.depth + 1, .templateTag⟩ := by
  intro comps
  induction comps with
  | nil => intro acc it h; exact Or.inl h
  | cons c cs ih =>
    intro acc it h
    rcases ih _ it h with h1 | ⟨comp, hcm, rfl⟩
    · unfold tagPushStep at h1
      rcases List.mem_append.mp h1 with h2 | h2
      · exact Or.inl h2
      · split at h2
        · simp at h2
        · simp only [List.mem_singleton] at h2
          exact Or.inr ⟨c, List.mem_cons_self c cs, h2⟩
    · exact Or.inr ⟨comp, List.mem_cons_of_mem c hcm, rfl⟩

theorem tagDiscovery_mem (idx : SelIndex) (v : List String) (i : QueueItem) :
    ∀ (tags : List String) (acc : List DiscoveryEdge × List QueueItem)
      (it : QueueItem), it ∈ (tags.foldl (tagScanStep idx v i) acc).2 →
      it ∈ acc.2 ∨ ∃ tag, ∃ comp ∈ idxBucket idx tag,
        it = ⟨comp.file, comp.className, i.depth + 1, .templateTag⟩ := by
  intro tags
  induction tags with
  | nil => intro acc it h; exact Or.inl h
  | cons t ts ih =>
    intro acc it h
    rcases ih _ it h with h1 | ⟨tag, comp, hcm, rfl⟩
    · unfold tagScanStep at h1
      cases hl : idxLookup idx t with
      | none =>
        rw [hl] at h1
        exact Or.inl h1
      | some comps =>
        rw [hl] at h1
        rcases foldl_tagPushStep_mem v i comps acc it h1 with h2 | ⟨comp, hcm, rfl⟩
        · exact Or.inl h2
        · refine Or.inr ⟨t, comp, ?_, rfl⟩
          unfold idxBucket
          rw [hl]
          exact hcm
    · exact Or.inr ⟨tag, comp, hcm, rfl⟩

theorem depDiscovery_len (v : List String) (i : QueueItem) (deps : List NodeId) :
    (depDiscovery v i deps).2.length ≤ deps.length := by
  unfold depDiscovery
  have h : ∀ (l : List NodeId) (acc : List DiscoveryEdge × List QueueItem),
      ((l.foldl (depPushStep v i) acc).2.length ≤ acc.2.length + l.length) := by
    intro l
    induction l with
    | nil => intro acc; simp
    | cons d ds ih =>
      intro acc
      have hstep : (depPushStep v i acc d).2.length ≤ acc.2.length + 1 := by
        unfold depPushStep
        split <;> simp
      calc ((ds.foldl (depPushStep v i) (depPushStep v i acc d)).2.length) ≤
          (depPushStep v i acc d).2.length + ds.length := ih _
        _ ≤ acc.2.length + 1 + ds.length := by omega
        _ = acc.2.length + (d :: ds).length := by simp; omega
  simpa using h deps ([], [])

theorem depDiscovery_mem (v : List String) (i : QueueItem) :
    ∀ (deps : List NodeId) (acc : List DiscoveryEdge × List QueueItem)
      (it : QueueItem), it ∈ (deps.foldl (depPushStep v i) acc).2 →
      it ∈ acc.2 ∨ ∃ dep ∈ deps, it = ⟨dep.file, dep.className, i.depth + 1, .injects⟩ := by
  intro deps
  induction deps with
  | nil => intro acc it h; exact Or.inl h
  | cons d ds ih =>
    intro acc it h
    rcases ih _ it h with h1 | ⟨dep, hdm, rfl⟩
    · unfold depPushStep at h1
      rcases List.mem_append.mp h1 with h2 | h2
      · exact Or.inl h2
      · split at h2
        · simp at h2
        · simp only [List.mem_singleton] at h2
          exact Or.inr ⟨d, List.mem_cons_self d ds, h2⟩
    · exact Or.inr ⟨dep, List.mem_cons_of_mem d hdm, rfl⟩

/-! ### Dependency list bound -/

theorem uniqSet_len (k : String) (v : NodeId) :
    ∀ m : List (String × NodeId), (uniqSet m k v).length ≤ m.length + 1 := by
  intro m
  induction m with
  | nil => simp [uniqSet]
  | cons kv0 rest ih =>
    unfold uniqSet
    split
    · simp
    · simp only [List.length_cons]
      omega

theorem dedupByKey_len (l : List NodeId) : (dedupByKey l).length ≤ l.length := by
  unfold dedupByKey
  rw [List.length_map]
  have := foldl_len_le (fun m i => uniqSet m (nodeKey i.file i.className) i)
    (fun acc b => uniqSet_len _ _ acc) l []
  simpa using this

theorem uniqSet_mem (k : String) (v : NodeId) :
    ∀ (m : List (String × NodeId)) (kv : String × NodeId), kv ∈ uniqSet m k v →
      kv ∈ m ∨ kv.2 = v := by
  intro m
  induction m with
  | nil =>
    intro kv h
    simp only [uniqSet, List.mem_singleton] at h
    subst h
    exact Or.inr rfl
  | cons kv0 rest ih =>
    intro kv h
    unfold uniqSet at h
    split at h
    · rcases List.mem_cons.mp h with rfl | h1
      · exact Or.inr rfl
      · exact Or.inl (List.mem_cons_of_mem kv0 h1)
    · rcases List.mem_cons.mp h with rfl | h1
      · exact Or.inl (List.mem_cons_self kv rest)
      · rcases ih kv h1 with h2 | h2
        · exact Or.inl (List.mem_cons_of_mem kv0 h2)
        · exact Or.inr h2

theorem foldl_uniqSet_mem :
    ∀ (l : List NodeId) (m : List (String × NodeId)) (kv : String × NodeId),
      kv ∈ l.foldl (fun m i => uniqSet m (nodeKey i.file i.className) i) m →
      kv ∈ m ∨ kv.2 ∈ l := by
  intro l
  induction l with
  | nil => intro m kv h; exact Or.inl h
  | cons d ds ih =>
    intro m kv h
    rcases ih _ kv h with h1 | h1
    · rcases uniqSet_mem _ _ m kv h1 with h2 | h2
      · exact Or.inl h2
      · exact Or.inr (h2 ▸ List.mem_cons_self d ds)
    · exact Or.inr (List.mem_cons_of_mem d h1)

theorem dedupByKey_subset (l : List NodeId) (x : NodeId) (h : x ∈ dedupByKey l) :
    x ∈ l := by
  unfold dedupByKey at h
  obtain ⟨kv, hkv, rfl⟩ := List.mem_map.mp h
  rcases foldl_uniqSet_mem l [] kv hkv with h1 | h1
  · simp at h1
  · exact h1

theorem appendStep_len {α : Type} (g : List NodeId → α → List NodeId)
    (hg : ∀ acc b, (g acc b).length ≤ acc.length + 1) :
    ∀ (l : List α) (acc : List NodeId), (l.foldl g acc).length ≤ acc.length + l.length :=
  foldl_len_le g hg

theorem collectInjectedClassTypes_len (cls : EnvClass) :
    (collectInjectedClassTypes cls).length ≤
      ((cls.ctors.head?.map (fun ct => ct.params.length)).getD 0) + cls.props.length := by
  have hstep1 : ∀ (acc : List NodeId) (p : CtorParam),
      ((if p.typeNodeText.isSome then
          match p.resolvedClass with
          | some i => acc ++ [i]
          | none => acc
        else acc).length ≤ acc.length + 1) := by
    intro acc p
    split
    · split <;> simp
    · simp
  have hstep2 : ∀ (acc : List NodeId) (p : PropDecl),
      ((if p.typeNodeText.isSome then
          match p.resolvedClass with
          | some i => acc ++ [i]
          | none => acc
        else acc).length ≤ acc.length + 1) := by
    intro acc p
    split
    · split <;> simp
    · simp
  simp only [collectInjectedClassTypes]
  apply le_trans (dedupByKey_len _)
  apply le_trans (foldl_len_le _ hstep2 cls.props _)
  apply Nat.add_le_add_right
  cases hh : cls.ctors.head? with
  | none => simp
  | some ctor => simpa using foldl_len_le _ hstep1 ctor.params []

theorem classDep_le_total {env : Env} {f : EnvFile} {c : EnvClass}
    (hf : f ∈ env.files) (hc : c ∈ f.classes) :
    ((c.ctors.head?.map (fun ct => ct.params.length)).getD 0) + c.props.length ≤
      depBoundTotal env := by
  unfold depBoundTotal
  apply List.single_le_sum (fun y _ => Nat.zero_le y)
  apply List.mem_flatMap.mpr
  exact ⟨f, hf, List.mem_map.mpr ⟨c, hc, rfl⟩⟩

/-! ### Key membership in the reachable universe -/

theorem univKeys_root_mem (env : Env) (req : Request) (r : RootSpec)
    (hr : r ∈ req.roots) :
    nodeKey r.sourceFilePath r.componentClassName ∈ univKeys env req := by
  unfold univKeys
  rw [mem_dedupKF]
  apply List.mem_append.mpr
  exact Or.inl (List.mem_append.mpr (Or.inl (List.mem_map.mpr ⟨r, hr, rfl⟩)))

theorem canonPairs_key_mem {env : Env} (req : Request) {tag : String} {e : SelEntry}
    (h : (tag, e) ∈ canonPairs env) :
    nodeKey e.file e.className ∈ univKeys env req := by
  unfold canonPairs at h
  obtain ⟨f, hf, h2⟩ := List.mem_flatMap.mp h
  obtain ⟨c, hc, h3⟩ := List.mem_flatMap.mp h2
  have hkey : e.file = f.path ∧ e.className = classNameOrDefault c := by
    by_cases hdec : "Component" ∈ c.decorators
    · rw [if_pos hdec] at h3
      cases hsel : getComponentSelector c with
      | none => rw [hsel] at h3; simp at h3
      | some selector =>
        rw [hsel] at h3
        obtain ⟨part, _, hpe⟩ := List.mem_map.mp h3
        have he : e = SelEntry.mk f.path (classNameOrDefault c) part := by
          have := congrArg Prod.snd hpe
          simpa using this.symm
        rw [he]
        exact ⟨rfl, rfl⟩
    · rw [if_neg hdec] at h3
      simp at h3
  unfold univKeys
  rw [mem_dedupKF]
  apply List.mem_append.mpr
  apply Or.inl
  apply List.mem_append.mpr
  apply Or.inr
  apply List.mem_flatMap.mpr
  refine ⟨f, hf, ?_⟩
  apply List.mem_map.mpr
  refine ⟨c, hc, ?_⟩
  rw [hkey.1, hkey.2]

theorem injected_key_mem {env : Env} (req : Request) {f : EnvFile} {c : EnvClass}
    {dep : NodeId} (hf : f ∈ env.files) (hc : c ∈ f.classes)
    (hd : dep ∈ collectInjectedClassTypes c) :
    nodeKey dep.file dep.className ∈ univKeys env req := by
  unfold univKeys
  rw [mem_dedupKF]
  apply List.mem_append.mpr
  apply Or.inr
  apply List.mem_flatMap.mpr
  refine ⟨f, hf, ?_⟩
  apply List.mem_flatMap.mpr
  refine ⟨c, hc, ?_⟩
  exact List.mem_map.mpr ⟨dep, hd, rfl⟩

/-! ### Per-item push specification -/

theorem tagged_spec (env : Env) (req : Request) (idx : SelIndex)
    (visited : List String) (item : QueueItem) (tm1 : Option String)
    (hidx : IndexInv env idx) :
    (∀ it ∈ (taggedOf idx visited item tm1).2,
      nodeKey it.file it.className ∈ univKeys env req) ∧
    (taggedOf idx visited item tm1).2.length ≤ (canonPairs env).length := by
  cases tm1 with
  | none =>
    have hred : taggedOf idx visited item none =
        (([], []) : List DiscoveryEdge × List QueueItem) := rfl
    rw [hred]
    constructor
    · intro it hit
      simp at hit
    · simp
  | some t =>
    have hred : taggedOf idx visited item (some t) =
        (if t = "" then (([], []) : List DiscoveryEdge × List QueueItem)
         else tagDiscovery idx visited item (extractElementSelectorsFromTemplate t)) := rfl
    rw [hred]
    by_cases ht : t = ""
    · rw [if_pos ht]
      constructor
      · intro it hit
        simp at hit
      · simp
    · rw [if_neg ht]
      constructor
      · intro it hit
        unfold tagDiscovery at hit
        rcases tagDiscovery_mem idx visited item _ _ it hit with h1 | ⟨tag, comp, hcm, rfl⟩
        · simp at h1
        · exact canonPairs_key_mem req ((hidx tag).2 comp hcm)
      · apply tagDiscovery_le hidx
        unfold extractElementSelectorsFromTemplate
        exact nodup_dedupKF _

theorem deps_spec (env : Env) (req : Request) {f : EnvFile} {cls : EnvClass}
    (visited : List String) (item : QueueItem)
    (hf : f ∈ env.files) (hcls : cls ∈ f.classes) :
    (∀ it ∈ (depDiscovery visited item (collectInjectedClassTypes cls)).2,
      nodeKey it.file it.className ∈ univKeys env req) ∧
    (depDiscovery visited item (collectInjectedClassTypes cls)).2.length ≤
      depBoundTotal env := by
  constructor
  · intro it hit
    unfold depDiscovery at hit
    rcases depDiscovery_mem visited item _ _ it hit with h1 | ⟨dep, hdm, rfl⟩
    · simp at h1
    · exact injected_key_mem req hf hcls hdm
  · have h1 := depDiscovery_len visited item (collectInjectedClassTypes cls)
    have h2 := collectInjectedClassTypes_len cls
    have h3 := classDep_le_total hf hcls
    omega

theorem processItem_spec (env : Env) (req : Request) (st : TravState)
    (item : QueueItem) (hidx : IndexInv env st.index) :
    IndexInv env (processItem env req st item).1.index ∧
    (∀ it ∈ (processItem env req st item).2,
      nodeKey it.file it.className ∈ univKeys env req) ∧
    (processItem env req st item).2.length ≤ pushBound env := by
  simp only [processItem]
  split
  · refine ⟨hidx, ?_, ?_⟩
    · intro it h
      simp at h
    · simp
  · rename_i sourceFile hload
    have hfmem : sourceFile ∈ env.files := tryLoadFile_fst_some hload
    have hidx2 : IndexInv env (addFileEntries st.index sourceFile) :=
      addFileEntries_inv hidx hfmem
    split
    · refine ⟨hidx2, ?_, ?_⟩
      · intro it h
        simp at h
      · simp
    · rename_i cls hcls
      have hclsmem : cls ∈ sourceFile.classes := List.mem_of_find?_eq_some hcls
      split
      · have htag := tagged_spec env req (addFileEntries st.index sourceFile)
          st.visited item
          (templateTextOf env (tryLoadFile env st.loaded item.file).2
            (analyzeComponentNode env item.file item.className
              (resolveTargetModulesForRoot req item) cls)).1 hidx2
        have hdep := deps_spec env req st.visited item hfmem hclsmem
        refine ⟨hidx2, ?_, ?_⟩
        · intro it hit
          rcases List.mem_append.mp hit with h1 | h1
          · exact htag.1 it h1
          · exact hdep.1 it h1
        · rw [List.length_append]
          unfold pushBound
          have := htag.2
          have := hdep.2
          omega
      · have hdep := deps_spec env req st.visited item hfmem hclsmem
        refine ⟨hidx2, ?_, ?_⟩
        · intro it hit
          exact hdep.1 it hit
        · show ((depDiscovery st.visited item (collectInjectedClassTypes cls)).2).length ≤
            pushBound env
          unfold pushBound
          have := hdep.2
          omega

/-! ### Unvisited-count decrease -/

theorem filter_not_mem_add : ∀ (l : List String), l.Nodup →
    ∀ (k : String) (vs : List String), k ∈ l → k ∉ vs →
    (l.filter (fun x => ¬ x ∈ jsSetAdd vs k)).length + 1 =
      (l.filter (fun x => ¬ x ∈ vs)).length := by
  intro l
  induction l with
  | nil =>
    intro _ k vs hk _
    simp at hk
  | cons a as ih =>
    intro hnd k vs hk hkvs
    rcases List.nodup_cons.mp hnd with ⟨hanotin, hnd2⟩
    rw [List.filter_cons, List.filter_cons]
    by_cases hak : a = k
    · subst hak
      have hnew : (decide (¬ a ∈ jsSetAdd vs a)) = false := by
        simp [mem_jsSetAdd]
      have hold : (decide (¬ a ∈ vs)) = true := by
        simp [hkvs]
      rw [hnew, hold]
      simp only [Bool.false_eq_true, if_false, if_true, List.length_cons]
      have heqf : as.filter (fun x => ¬ x ∈ jsSetAdd vs a) =
          as.filter (fun x => ¬ x ∈ vs) := by
        apply List.filter_congr
        intro x hx
        have hxk : x ≠ a := fun he => hanotin (he ▸ hx)
        simp only [decide_eq_decide, mem_jsSetAdd]
        constructor
        · intro h1 h2
          exact h1 (Or.inl h2)
        · intro h1 h2
          rcases h2 with h2 | h2
          · exact h1 h2
          · exact hxk h2
      rw [heqf]
    · have hka : k ∈ as := by
        rcases List.mem_cons.mp hk with h1 | h1
        · exact absurd h1.symm hak
        · exact h1
      have hpred : (decide (¬ a ∈ jsSetAdd vs k)) = (decide (¬ a ∈ vs)) := by
        simp only [decide_eq_decide, mem_jsSetAdd]
        constructor
        · intro h1 h2
          exact h1 (Or.inl h2)
        · intro h1 h2
          rcases h2 with h2 | h2
          · exact h1 h2
          · exact hak h2
      rw [hpred]
      cases hcond : (decide (¬ a ∈ vs)) with
      | false =>
        simp only [Bool.false_eq_true, if_false]
        exact ih hnd2 k vs hka hkvs
      | true =>
        simp only [if_true, List.length_cons]
        have := ih hnd2 k vs hka hkvs
        omega

theorem univKeys_nodup (env : Env) (req : Request) : (univKeys env req).Nodup := by
  unfold univKeys
  exact nodup_dedupKF _

theorem unvisitedCount_succ (env : Env) (req : Request) (st : TravState) (k : String)
    (hm : k ∈ univKeys env req) (hn : k ∉ st.visited) :
    unvisitedCount env req { st with visited := jsSetAdd st.visited k } + 1 =
      unvisitedCount env req st := by
  unfold unvisitedCount
  exact filter_not_mem_add (univKeys env req) (univKeys_nodup env req) k st.visited hm hn

/-! ### Loop completeness -/

theorem loopRun_completes (env : Env) (req : Request) (mN : Nat) (mD : Option Nat) :
    ∀ (fuel : Nat) (queue : List QueueItem) (st : TravState),
      QueueInv env req queue → IndexInv env st.index →
      potential env req queue st < fuel →
      (loopRun env req mN mD fuel queue st).2 = true := by
  intro fuel
  induction fuel with
  | zero =>
    intro queue st _ _ hp
    cases queue with
    | nil => rw [loopRun]
    | cons item rest => exact absurd hp (Nat.not_lt_zero _)
  | succ n ih =>
    intro queue st hq hi hp
    cases queue with
    | nil => rw [loopRun]
    | cons item rest =>
      have hqrest : QueueInv env req rest :=
        fun it h => hq it (List.mem_cons_of_mem item h)
      rw [loopRun]
      split
      · apply ih rest st hqrest hi
        unfold potential at hp ⊢
        simp only [List.length_cons] at hp
        omega
      · split
        · rfl
        · split
          · apply ih rest st hqrest hi
            unfold potential at hp ⊢
            simp only [List.length_cons] at hp
            omega
          · rename_i hvis hceil hdepth
            set st2 := { st with
              visited := jsSetAdd st.visited (nodeKey item.file item.className) }
              with hst2
            have hidx2 : IndexInv env st2.index := hi
            have hspec := processItem_spec env req st2 item hidx2
            apply ih (rest ++ (processItem env req st2 item).2)
              (processItem env req st2 item).1
            · intro it hit
              rcases List.mem_append.mp hit with h1 | h1
              · exact hqrest it h1
              · exact hspec.2.1 it h1
            · exact hspec.1
            · have hvpres := processItem_visited env req st2 item
              have hkey : nodeKey item.file item.className ∈ univKeys env req :=
                hq item (List.mem_cons_self item rest)
              have hdec := unvisitedCount_succ env req st
                (nodeKey item.file item.className) hkey hvis
              unfold potential at hp ⊢
              rw [List.length_append]
              have hucount : unvisitedCount env req (processItem env req st2 item).1 =
                  unvisitedCount env req st2 := by
                unfold unvisitedCount
                rw [hvpres]
              rw [hucount]
              have hpush := hspec.2.2
              simp only [List.length_cons] at hp
              have hmul : (pushBound env + 1) * unvisitedCount env req st =
                  (pushBound env + 1) * unvisitedCount env req st2 +
                    (pushBound env + 1) := by
                rw [← hdec, Nat.mul_succ]
              rw [hmul] at hp
              generalize (pushBound env + 1) * unvisitedCount env req st2 = X at hp ⊢
              omega

/-! ### Claim C3 -/

theorem filter_not_mem_nil (l : List String) :
    (l.filter (fun k => ¬ k ∈ ([] : List String))).length = l.length := by
  induction l with
  | nil => rfl
  | cons a as ih =>
    rw [List.filter_cons]
    simp [ih]

/-- C3: every traversal run finishes within the supplied fuel, by queue
exhaustion or by the node ceiling, so the loop terminates on every input;
and the concrete mutual-reference cycle terminates with exactly two nodes
and the two template-tag edges between them. -/
theorem C3_termination :
    (∀ (env : Env) (req : Request),
      (RecursiveGraphAnalyzer.analyzeAux env req).2 = true) ∧
    (RecursiveGraphAnalyzer.analyze envCycle reqCycle).nodes.map nodeIdentity =
      [("/app/a.ts", "AComp"), ("/app/b.ts", "BComp")] ∧
    (RecursiveGraphAnalyzer.analyze envCycle reqCycle).edges =
      [⟨⟨"/app/a.ts", "AComp"⟩, ⟨"/app/b.ts", "BComp"⟩, .templateTag⟩,
       ⟨⟨"/app/b.ts", "BComp"⟩, ⟨"/app/a.ts", "AComp"⟩, .templateTag⟩] := by
  refine ⟨?_, by decide, by decide⟩
  intro env req
  unfold RecursiveGraphAnalyzer.analyzeAux
  apply loopRun_completes
  · intro it hit
    obtain ⟨r, hr, rfl⟩ := List.mem_map.mp hit
    exact univKeys_root_mem env req r hr
  · exact buildSelectorIndexFull_inv env (initialLoad env req)
  · unfold potential fuelFor unvisitedCount
    simp only [List.length_map]
    rw [filter_not_mem_nil]
    generalize (pushBound env + 1) * (univKeys env req).length = X
    omega

/-! ### Edge list not closed over nodes (claim C10) -/

/-- C10: under the node ceiling of one, the run emits the discovery edge to
the second component but never a node for it, so the edge list is not
closed over the node list. -/
theorem C10_edges_not_closed :
    (RecursiveGraphAnalyzer.analyze envCycle reqCeiling).edges =
      [⟨⟨"/app/a.ts", "AComp"⟩, ⟨"/app/b.ts", "BComp"⟩, .templateTag⟩] ∧
    (RecursiveGraphAnalyzer.analyze envCycle reqCeiling).nodes.map nodeIdentity =
      [("/app/a.ts", "AComp")] ∧
    ∃ e ∈ (RecursiveGraphAnalyzer.analyze envCycle reqCeiling).edges,
      ∀ n ∈ (RecursiveGraphAnalyzer.analyze envCycle reqCeiling).nodes,
        ¬ nodeIdentity n = (e.toId.file, e.toId.className) := by
  refine ⟨by decide, by decide, ?_⟩
  refine ⟨⟨⟨"/app/a.ts", "AComp"⟩, ⟨"/app/b.ts", "BComp"⟩, .templateTag⟩, by decide, ?_⟩
  decide

end NgAnalyzer
